import Mathlib

/-!
Verification of the gjallarhorn child-process supervisor (src/index.js).

The JavaScript source is shallowly embedded as a small-step state machine.
Worker handles are abstracted by the id of the attempt that owns them
(every worker is assumed to have a truthy pid, so `killer` is always
invoked for a cleared round), message payloads and launch specs are
abstracted as natural numbers, and each logical submission's completion
callback is abstracted by a distinct natural-number identity `cb`.
Invocations of the underlying callbacks are recorded in an event log;
the `one-time` wrapper chain created by `one(fn)` is modelled by the
guard `cb ∈ logCbs` (the innermost wrapper's fired flag is set exactly
when the underlying callback has run, which is exactly membership in
the log).  Node's single-threaded event loop delivers at most one event
at a time, which the step function reflects: events are delivered only
to rounds still present in `active`, because `clear` removes the round,
its Ultron event subscriptions and its timer atomically.
-/

namespace Gjall

/-- Error values surfaced to completion callbacks (src/index.js builds
`Error` objects with these messages). -/
inductive Err where
  /-- `Operation timed out after <ms> ms` (line 207). -/
  | timedOut (ms : Nat)
  /-- `Operation failed after retrying` (line 193). -/
  | failedRetrying
  /-- `Operation cancelled, instance destroyed` (line 285). -/
  | cancelled
  /-- pass-through of a worker `error` event payload. -/
  | worker (e : Nat)
deriving DecidableEq, Repr

/-- The per-call options object after the overload normalisation of
`launch` (lines 86-89): `retries`, `timeout` and the optional message
handler.  `message := true` means the caller supplied a handler. -/
structure Opts where
  retries : Option Int
  timeout : Option Nat
  message : Bool
deriving DecidableEq, Repr

/-- `Round` (lines 23-32): one execution attempt.  `fnNope` records
whether `round.fn` has been replaced by the `nope` stub (line 158);
`msgs` is the `messages` buffer of the `tracking` closure (line 175). -/
structure Round where
  id : Nat
  spec : Nat
  retries : Int
  timeout : Nat
  cb : Nat
  fnNope : Bool
  message : Bool
  msgs : List Nat
deriving DecidableEq, Repr

/-- The `Round` constructor: note `this.retries = retries - 1` (line 25)
pre-decrements the supplied budget. -/
def Round.make (id spec : Nat) (retries : Int) (timeout : Nat) (cb : Nat)
    (message : Bool) : Round :=
  { id := id, spec := spec, retries := retries - 1, timeout := timeout,
    cb := cb, fnNope := false, message := message, msgs := [] }

/-- One invocation of an underlying completion callback:
`fn(err, messages)`. -/
structure CbCall where
  cb : Nat
  err : Option Err
  msgs : Option (List Nat)
deriving DecidableEq, Repr

/-- The Gjallarhorn instance state (lines 48-61).  `timers : Bool` is
whether the TickTock registry is still alive (`this.timers` truthy);
`armed` is the set of timer keys currently armed (each attempt's
`id+':timeout'` key, represented by the id).  `log` records underlying
callback invocations, `killed` the pids handed to `killer` (abstracted
by round id), `handled` the `(round id, payload)` pairs delivered to a
caller-supplied message handler, and `used` the callback identities
already handed to an external `launch` call (model scaffolding ensuring
distinct logical submissions carry distinct callback identities). -/
structure G where
  timeout : Nat
  concurrent : Nat
  retries : Nat
  factory : Option (Nat → Bool)
  timers : Bool
  armed : List Nat
  active : List Round
  queue : List (Nat × Opts × Nat)
  ids : Nat
  log : List CbCall
  killed : List Nat
  handled : List (Nat × Nat)
  used : List Nat

/-- Construction options (lines 48-55). -/
structure CtorOpts where
  timeout : Option Nat
  concurrent : Option Nat
  retries : Option Nat
  factory : Option (Nat → Bool)

/-- JavaScript `x || d` for an optional numeric `x`: both an absent and
a zero (falsy) value fall back to the default. -/
def numOr (o : Option Nat) (d : Nat) : Nat :=
  match o with
  | none => d
  | some n => if n = 0 then d else n

/-- The `Gjallarhorn` constructor (lines 48-61).  `ms('30 seconds')`
evaluates to 30000. -/
def gjallarhorn (o : CtorOpts) : G :=
  { timeout := numOr o.timeout 30000
    concurrent := numOr o.concurrent 256
    retries := numOr o.retries 3
    factory := o.factory
    timers := true
    armed := []
    active := []
    queue := []
    ids := 0
    log := []
    killed := []
    handled := []
    used := [] }

/-- The callback identities that have been invoked. -/
def logCbs (g : G) : List Nat := g.log.map CbCall.cb

/-- Invoke `round.fn err msgs`: a no-op when the fn was replaced by the
`nope` stub, and guarded by the innermost `one-time` wrapper (modelled
as membership in the log). -/
def callFn (g : G) (r : Round) (err : Option Err) (msgs : Option (List Nat)) : G :=
  if r.fnNope then g
  else if r.cb ∈ logCbs g then g
  else { g with log := g.log ++ [⟨r.cb, err, msgs⟩] }

/-- `clear(id, err, messages)` (lines 235-261): for every active round
with the given id (at most one, ids are unique), invoke its fn, remove
its event subscriptions, schedule its worker for killing, drop it from
`active`, and clear its timer key. -/
def clear (g : G) (id : Nat) (err : Option Err) (msgs : Option (List Nat)) : G :=
  let cleared := g.active.filter (fun r => r.id == id)
  let g1 := cleared.foldl (fun acc r => callFn acc r err msgs) g
  { g1 with
    active := g.active.filter (fun r => r.id != id)
    killed := g1.killed ++ cleared.map Round.id
    armed := g1.armed.filter (fun k => k != id) }

/-- `tracking(round)` (lines 172-224): arm the round's timeout timer and
push the round onto `active` (event handlers are modelled by the step
function, which delivers events only to rounds in `active`). -/
def tracking (g : G) (r : Round) : G :=
  { g with armed := g.armed ++ [r.id], active := g.active ++ [r] }

/-- Line 91: `options.retries = 'retries' in options ? options.retries
: this.retries` (a presence check, not a truthiness check). -/
def effRetries (g : G) (o : Opts) : Int :=
  match o.retries with
  | some r => r
  | none => (g.retries : Int)

/-- Line 92: `options.timeout = 'timeout' in options ? options.timeout
: this.timeout`. -/
def effTimeout (g : G) (o : Opts) : Nat :=
  match o.timeout with
  | some t => t
  | none => g.timeout

/-- The options object after the in-place defaulting of lines 91-92. -/
def defOpts (g : G) (o : Opts) : Opts :=
  ⟨some (effRetries g o), some (effTimeout g o), o.message⟩

/-- `launch(spec, options, fn)` (lines 85-117).  Lines 91-92 resolve the
effective `retries`/`timeout`; at max concurrency the triple is queued
and `false` returned; with no factory or a falsy factory result the
submission is silently dropped; otherwise a fresh round is created and
tracked. -/
def launch (g : G) (spec : Nat) (opts : Opts) (cb : Nat) : G × Bool :=
  if g.active.length = g.concurrent then
    ({ g with queue := g.queue ++ [(spec, defOpts g opts, cb)] }, false)
  else
    match g.factory with
    | none => (g, false)
    | some f =>
      if f spec then
        (tracking { g with ids := g.ids + 1 }
          (Round.make g.ids spec (effRetries g opts) (effTimeout g opts) cb
            opts.message), true)
      else (g, false)

/-- `next()` (lines 125-133): pop the queue head and re-run `launch`
with it, unless the queue is empty or concurrency is saturated. -/
def next (g : G) : G × Bool :=
  match g.queue with
  | [] => (g, false)
  | (spec, opts, cb) :: rest =>
    if g.active.length = g.concurrent then (g, false)
    else launch { g with queue := rest } spec opts cb

/-- `reload(factory)` (lines 70-74). -/
def reload (g : G) (f : Option (Nat → Bool)) : G := { g with factory := f }

/-- `has(id)` (lines 270-274). -/
def has (g : G) (id : Nat) : Bool := g.active.any (fun r => r.id == id)

/-- `round.fn = function nope() {}` (line 158). -/
def setNope (g : G) (id : Nat) : G :=
  { g with active :=
      g.active.map (fun r => if r.id == id then { r with fnNope := true } else r) }

/-- `again(round)` (lines 142-164): declined immediately on a destroyed
instance (line 148, returning `true`); declined with `false` when the
round's retries counter is (JS-falsy) zero; otherwise the fn is stashed
and replaced by `nope`, the round is cleared without firing its
callback, and `launch` is re-run with the round object itself as the
options (so `'retries' in options` and `'timeout' in options` both
hold). -/
def again (g : G) (r : Round) : G × Bool :=
  if g.timers = false then (g, true)
  else if r.retries = 0 then (g, false)
  else
    ((launch (clear (setNope g r.id) r.id none none) r.spec
        ⟨some r.retries, some r.timeout, r.message⟩ r.cb).1, true)

/-- Argument of the shared `retry` handler (lines 187-199): an exit code
(from the `exit` event) or an error payload (from the `error` event). -/
inductive RArg where
  | code (n : Nat)
  | err (e : Nat)
deriving DecidableEq, Repr

/-- The `retry` closure of `tracking` (lines 187-199): a falsy argument
(exit code 0) goes straight to `clear`; a truthy one first attempts
`again`, and on refusal a numeric code is normalised to the generic
`failedRetrying` error before the terminal `clear`; `next` runs after
every terminal `clear`. -/
def retry (g : G) (r : Round) (a : RArg) : G :=
  match a with
  | .code 0 => (next (clear g r.id none (some r.msgs))).1
  | .code (_ + 1) =>
    match again g r with
    | (g1, true) => g1
    | (g1, false) =>
      (next (clear g1 r.id (some .failedRetrying) (some r.msgs))).1
  | .err e =>
    match again g r with
    | (g1, true) => g1
    | (g1, false) =>
      (next (clear g1 r.id (some (.worker e)) (some r.msgs))).1

/-- The `timeout` closure of `tracking` (lines 201-209): attempt
`again`, else clear terminally with the timeout error built from
`round.timeout` and run `next`. -/
def timeoutFire (g : G) (r : Round) : G :=
  match again g r with
  | (g1, true) => g1
  | (g1, false) =>
    (next (clear g1 r.id (some (.timedOut r.timeout)) (some r.msgs))).1

/-- The `message` handler of `tracking` (lines 211-221): with a
caller-supplied handler the payload is delivered to it together with
the owning round; otherwise it is pushed onto the round's buffer. -/
def onMessage (g : G) (r : Round) (m : Nat) : G :=
  if r.message then { g with handled := g.handled ++ [(r.id, m)] }
  else { g with active :=
      g.active.map (fun x => if x.id == r.id then { x with msgs := x.msgs ++ [m] } else x) }

/-- `destroy()` (lines 282-312): a no-op returning `false` once
`this.timers` is gone; otherwise clear every active round with one
shared cancellation error, invoke every queued entry's raw callback
with the same error, empty both collections, destroy the timer
registry and drop the factory reference. -/
def destroy (g : G) : G × Bool :=
  if g.timers = false then (g, false)
  else
    ({ g.active.foldl (fun acc r => clear acc r.id (some .cancelled) none) g with
        log := (g.active.foldl (fun acc r => clear acc r.id (some .cancelled) none) g).log
          ++ g.queue.map
            (fun (q : Nat × Opts × Nat) => (⟨q.2.2, some .cancelled, none⟩ : CbCall))
        queue := []
        active := []
        armed := []
        timers := false
        factory := none }, true)

/-- Environment events driving the supervisor: public API calls
(`launch`, `reload`, `destroy`) and asynchronous worker/timer signals
(`exit`, `error`, `message`, timer firing). -/
inductive Ev where
  | launch (spec : Nat) (opts : Opts) (cb : Nat)
  | exit (id : Nat) (code : Nat)
  | error (id : Nat) (e : Nat)
  | message (id : Nat) (m : Nat)
  | timeout (id : Nat)
  | reload (f : Option (Nat → Bool))
  | destroy

/-- Look up an active round by id. -/
def findRound (g : G) (id : Nat) : Option Round :=
  g.active.find? (fun r => r.id == id)

/-- One step of the event-driven machine.  Worker signals reach a round
only while it is active (its Ultron subscriptions are removed together
with the round by `clear`), and a timer fires only while armed.  An
external `launch` call carries a fresh callback identity and is issued
only on a live instance (on a destroyed one the code would throw on the
null timer registry). -/
def stepF (g : G) (e : Ev) : G :=
  match e with
  | .launch spec opts cb =>
    if g.timers = true ∧ cb ∉ g.used then
      (launch { g with used := g.used ++ [cb] } spec opts cb).1
    else g
  | .exit id code =>
    match findRound g id with
    | some r => retry g r (.code code)
    | none => g
  | .error id e =>
    match findRound g id with
    | some r => retry g r (.err e)
    | none => g
  | .message id m =>
    match findRound g id with
    | some r => onMessage g r m
    | none => g
  | .timeout id =>
    if id ∈ g.armed then
      match findRound g id with
      | some r => timeoutFire g r
      | none => g
    else g
  | .reload f => reload g f
  | .destroy => (destroy g).1

/-- Reachability from a given state by any sequence of events. -/
inductive Reach (g0 : G) : G → Prop where
  | refl : Reach g0 g0
  | step : ∀ {g : G} (e : Ev), Reach g0 g → Reach g0 (stepF g e)

/-- Callback identities of queued entries. -/
def queueCbs (g : G) : List Nat := g.queue.map (fun q => q.2.2)

/-- Every callback identity referenced by the supervisor: owners of
active rounds, queued entries, and already-invoked callbacks. -/
def refCbs (g : G) : List Nat :=
  g.active.map Round.cb ++ queueCbs g ++ logCbs g

/-- State invariant maintained by every reachable state: active ids are
distinct and below the counter, no active round carries the `nope`
stub, each referenced callback identity occurs exactly once across
active rounds, queue and log, referenced callbacks were handed in by
some submission, the active set respects the concurrency limit, the
armed timer keys are exactly the active ids, rounds with a caller
handler have an empty buffer, and a destroyed instance has no active
or queued work. -/
structure Inv (g : G) : Prop where
  idsNodup : (g.active.map Round.id).Nodup
  idsLt : ∀ r ∈ g.active, r.id < g.ids
  noNope : ∀ r ∈ g.active, r.fnNope = false
  cbsNodup : (refCbs g).Nodup
  cbsUsed : ∀ c ∈ refCbs g, c ∈ g.used
  activeLe : g.active.length ≤ g.concurrent
  armedEq : g.armed = g.active.map Round.id
  handlerEmpty : ∀ r ∈ g.active, r.message = true → r.msgs = []
  destroyedInactive : g.timers = false → g.active = [] ∧ g.queue = []

/-- A worker factory that always yields a handle, and a default
construction using it: shared concrete fixtures for the witnesses. -/
def exFactory : Nat → Bool := fun _ => true

def exCtor : CtorOpts := ⟨none, none, none, some exFactory⟩

def ex0 : G := gjallarhorn exCtor

def exOpts : Opts := ⟨none, none, false⟩

/-- One submission admitted: a single active round (id 0, budget 3
stored as `retries = 2`). -/
def ex1 : G := stepF ex0 (.launch 5 exOpts 7)

/-- The same state after the factory was replaced by `reload` with no
factory. -/
def ex2 : G := stepF ex1 (.reload none)

/-- … and after the worker then exits with code 1: the retry is
silently dropped. -/
def ex3 : G := stepF ex2 (.exit 0 1)

def exRound : Round := ⟨0, 5, 2, 30000, 7, false, false, []⟩

/-- A fresh instance whose factory was removed by `reload`. -/
def exNoFac : G := stepF ex0 (.reload none)

/-- A destroyed instance. -/
def exDestroyed : G := stepF ex0 .destroy

/-- The callback identity `cb` can never fire in any state reachable
from `g`. -/
def neverFires (g : G) (cb : Nat) : Prop :=
  ∀ g', Reach g g' → cb ∉ logCbs g'

/-- A concurrency-1 construction. -/
def exCtor1 : CtorOpts := ⟨none, some 1, none, some exFactory⟩

/-- A concurrency-1 instance at capacity (one active round). -/
def exq1 : G := stepF (gjallarhorn exCtor1) (.launch 1 exOpts 100)

/-- The expected post-state of a retry transition: old round removed,
killed and disarmed, fresh round (id `g.ids`, same spec, timeout,
message handler and callback, budget decremented by the `Round`
constructor) tracked; queue and log untouched. -/
def retryPost (g : G) (r : Round) : G :=
  { g with
    ids := g.ids + 1
    active := g.active.filter (fun x => x.id != r.id)
      ++ [Round.make g.ids r.spec r.retries r.timeout r.cb r.message]
    armed := g.armed.filter (fun k => k != r.id) ++ [g.ids]
    killed := g.killed ++ [r.id] }

/-- A buffering submission that has received two messages. -/
def exm3 : G :=
  stepF (stepF (stepF ex0 (.launch 9 exOpts 4)) (.message 0 11)) (.message 0 12)

def exMRound : Round := ⟨0, 9, 2, 30000, 4, false, false, [11, 12]⟩

/-- A submission with a caller-supplied message handler. -/
def exh1 : G := stepF ex0 (.launch 9 ⟨none, none, true⟩ 4)

def exHRound : Round := ⟨0, 9, 2, 30000, 4, false, true, []⟩

/-- Reference-semantics re-embedding of `launch` (lines 85-98) for the
caller's options object: the heap `store` holds the caller-owned
options objects, and callers pass a reference (index) `oref`.  Lines
91-92 mutate the referenced object in place; a queued entry stores the
reference, not a copy.  Worker tracking, which this portion of
`launch` only consults through the active count, is abstracted to that
count. -/
structure OptObj where
  retries : Option Int
  timeout : Option Nat
deriving DecidableEq, Repr

structure LS where
  store : List OptObj
  queue : List (Nat × Nat × Nat)
  activeCount : Nat
  concurrent : Nat
  retries : Nat
  timeout : Nat
  factory : Option (Nat → Bool)

/-- The in-place defaulting of lines 91-92 applied to the referenced
options object. -/
def defaulted (g : LS) (o : OptObj) : OptObj :=
  ⟨some (o.retries.getD (g.retries : Int)), some (o.timeout.getD g.timeout)⟩

def launchRef (g : LS) (spec : Nat) (oref : Nat) (cb : Nat) : LS × Bool :=
  match g.store[oref]? with
  | none => (g, false)
  | some o =>
    if g.activeCount = g.concurrent then
      ({ g with
          store := g.store.set oref (defaulted g o)
          queue := g.queue ++ [(spec, oref, cb)] }, false)
    else
      match g.factory with
      | none => ({ g with store := g.store.set oref (defaulted g o) }, false)
      | some f =>
        if f spec then
          ({ g with
              store := g.store.set oref (defaulted g o)
              activeCount := g.activeCount + 1 }, true)
        else ({ g with store := g.store.set oref (defaulted g o) }, false)

/-- Resolving the options of the `k`-th queued entry through the
store: queued entries hold references. -/
def entryOpts (g : LS) (k : Nat) : Option OptObj :=
  match g.queue[k]? with
  | none => none
  | some e => g.store[e.2.1]?


theorem filter_id_single {l : List Round} {r : Round} (hr : r ∈ l)
    (hn : (l.map Round.id).Nodup) :
    l.filter (fun x => x.id == r.id) = [r] := by
  induction l with
  | nil => cases hr
  | cons a t ih =>
    simp only [List.map_cons, List.nodup_cons] at hn
    rcases List.mem_cons.1 hr with h | h
    · subst h
      have ht : t.filter (fun x => x.id == r.id) = [] := by
        refine List.filter_eq_nil_iff.2 (fun x hx => ?_)
        simp only [beq_iff_eq]
        intro he
        exact hn.1 (he ▸ List.mem_map_of_mem Round.id hx)
      simp [List.filter_cons, ht]
    · have hne : (a.id == r.id) = false := by
        simp only [beq_eq_false_iff_ne, ne_eq]
        intro he
        exact hn.1 (he ▸ List.mem_map_of_mem Round.id h)
      simp [List.filter_cons, hne, ih h hn.2]

theorem filter_ne_of_not_mem {l : List Round} {n : Nat}
    (h : n ∉ l.map Round.id) :
    l.filter (fun x => x.id != n) = l := by
  refine List.filter_eq_self.2 (fun x hx => ?_)
  simp only [bne_iff_ne, ne_eq]
  intro he
  exact h (he ▸ List.mem_map_of_mem Round.id hx)

theorem map_filter_ne (l : List Round) (f : Round → Nat) (n : Nat)
    (hf : ∀ x, f x = Round.id x) :
    (l.filter (fun x => x.id != n)).map f
      = (l.map Round.id).filter (fun k => k != n) := by
  induction l with
  | nil => rfl
  | cons a t ih =>
    by_cases h : a.id = n
    · simp [List.filter_cons, h, ih]
    · simp [List.filter_cons, h, hf, ih]

theorem cb_map_filter_ne {l : List Round} {r : Round} (hr : r ∈ l)
    (hn : (l.map Round.id).Nodup) :
    List.Perm ((l.filter (fun x => x.id != r.id)).map Round.cb ++ [r.cb])
      (l.map Round.cb) := by
  induction l with
  | nil => cases hr
  | cons a t ih =>
    simp only [List.map_cons, List.nodup_cons] at hn
    rcases List.mem_cons.1 hr with h | h
    · subst h
      have ht : t.filter (fun x => x.id != r.id) = t :=
        filter_ne_of_not_mem hn.1
      have h1 : List.Perm (t.map Round.cb ++ r.cb :: [])
          (r.cb :: (t.map Round.cb ++ [])) := List.perm_middle
      simp only [List.filter_cons, bne_self_eq_false, cond_false, ht,
        List.map_cons]
      simp only [List.append_nil] at h1
      exact h1
    · have hne : (a.id != r.id) = true := by
        simp only [bne_iff_ne, ne_eq]
        intro he
        exact hn.1 (he ▸ List.mem_map_of_mem Round.id h)
      simp only [List.filter_cons, hne, cond_true, List.map_cons,
        List.cons_append]
      exact (ih h hn.2).cons a.cb

theorem length_filter_ne {l : List Round} {r : Round} (hr : r ∈ l)
    (hn : (l.map Round.id).Nodup) :
    (l.filter (fun x => x.id != r.id)).length + 1 = l.length := by
  induction l with
  | nil => cases hr
  | cons a t ih =>
    simp only [List.map_cons, List.nodup_cons] at hn
    rcases List.mem_cons.1 hr with h | h
    · subst h
      have ht : t.filter (fun x => x.id != r.id) = t :=
        filter_ne_of_not_mem hn.1
      simp [List.filter_cons, ht]
    · have hne : (a.id != r.id) = true := by
        simp only [bne_iff_ne, ne_eq]
        intro he
        exact hn.1 (he ▸ List.mem_map_of_mem Round.id h)
      have := ih h hn.2
      simp only [List.filter_cons, hne, cond_true, if_true, List.length_cons]
      omega

/-- Behaviour of `clear` on the id of an active round: the round is
removed, its worker killed, its timer key cleared, and its callback
invoked unless stubbed out or already fired. -/
theorem clear_mem {g : G} {r : Round} (hr : r ∈ g.active)
    (hn : (g.active.map Round.id).Nodup) (err : Option Err)
    (msgs : Option (List Nat)) :
    clear g r.id err msgs =
      { g with
        active := g.active.filter (fun x => x.id != r.id)
        killed := g.killed ++ [r.id]
        armed := g.armed.filter (fun k => k != r.id)
        log := if r.fnNope then g.log
               else if r.cb ∈ logCbs g then g.log
               else g.log ++ [⟨r.cb, err, msgs⟩] } := by
  unfold clear
  rw [filter_id_single hr hn]
  simp only [List.foldl_cons, List.foldl_nil, List.map_cons, List.map_nil]
  unfold callFn
  split_ifs <;> rfl

/-- `clear` on an id with no active round: only the timer key is
cleared. -/
theorem clear_not_mem {g : G} {n : Nat} (h : n ∉ g.active.map Round.id)
    (err : Option Err) (msgs : Option (List Nat)) :
    clear g n err msgs =
      { g with armed := g.armed.filter (fun k => k != n) } := by
  have h0 : g.active.filter (fun x => x.id == n) = [] := by
    refine List.filter_eq_nil_iff.2 (fun x hx => ?_)
    simp only [beq_iff_eq]
    intro he
    exact h (he ▸ List.mem_map_of_mem Round.id hx)
  have h1 : g.active.filter (fun x => x.id != n) = g.active :=
    filter_ne_of_not_mem h
  unfold clear
  rw [h0, h1]
  simp only [List.foldl_nil, List.map_nil, List.append_nil]

theorem setNope_ids (g : G) (n : Nat) :
    (setNope g n).active.map Round.id = g.active.map Round.id := by
  unfold setNope
  rw [List.map_map]
  refine List.map_congr_left (fun x _ => ?_)
  by_cases h : (x.id == n) = true <;> simp [Function.comp, h]

theorem filter_map_invariant {α : Type} (l : List α) (p : α → Bool) (f : α → α)
    (hf : ∀ x, p x = true → f x = x) (hp : ∀ x, p (f x) = p x) :
    (l.map f).filter p = l.filter p := by
  induction l with
  | nil => rfl
  | cons a t ih =>
    simp only [List.map_cons, List.filter_cons, hp a]
    by_cases h : p a = true
    · rw [if_pos h, if_pos h, hf a h, ih]
    · rw [if_neg h, if_neg h, ih]

theorem setNope_filter (l : List Round) (n : Nat) :
    (l.map (fun r => if r.id == n then { r with fnNope := true } else r)).filter
        (fun x => x.id != n)
      = l.filter (fun x => x.id != n) := by
  refine filter_map_invariant l _ _ (fun x hx => ?_) (fun x => ?_)
  · have hne : (x.id == n) = false := by
      simp only [bne_iff_ne, ne_eq] at hx
      exact beq_eq_false_iff_ne.2 hx
    simp [hne]
  · by_cases h : (x.id == n) = true <;> simp [h]

/-- The retry transition of `again` (live instance, retries left): the
failed round is silently cleared (callback stubbed to `nope`), then
`launch` is re-run with the round's own fields as options. -/
theorem again_go {g : G} {r : Round} (hr : r ∈ g.active)
    (hn : (g.active.map Round.id).Nodup) (ht : g.timers = true)
    (hz : ¬ r.retries = 0) :
    again g r =
      ((launch { g with
          active := g.active.filter (fun x => x.id != r.id)
          killed := g.killed ++ [r.id]
          armed := g.armed.filter (fun k => k != r.id) }
        r.spec ⟨some r.retries, some r.timeout, r.message⟩ r.cb).1, true) := by
  have htne : ¬ g.timers = false := by simp [ht]
  have hr' : ({ r with fnNope := true } : Round) ∈ (setNope g r.id).active := by
    unfold setNope
    have := List.mem_map_of_mem
      (fun x => if x.id == r.id then { x with fnNope := true } else x) hr
    simpa using this
  have hn' : ((setNope g r.id).active.map Round.id).Nodup := by
    rw [setNope_ids]; exact hn
  have hcl := clear_mem hr' hn' none none
  unfold again
  rw [if_neg htne, if_neg hz]
  have hid : ({ r with fnNope := true } : Round).id = r.id := rfl
  rw [hid] at hcl
  rw [hcl]
  have hfil : (setNope g r.id).active.filter (fun x => x.id != r.id)
      = g.active.filter (fun x => x.id != r.id) := setNope_filter _ _
  simp only [hfil]
  rfl

theorem launch_queue {g : G} (s : Nat) (o : Opts) (cb : Nat)
    (h : g.active.length = g.concurrent) :
    launch g s o cb =
      ({ g with queue := g.queue ++ [(s, defOpts g o, cb)] }, false) := by
  unfold launch
  rw [if_pos h]

theorem launch_none {g : G} (s : Nat) (o : Opts) (cb : Nat)
    (h : ¬ g.active.length = g.concurrent) (hf : g.factory = none) :
    launch g s o cb = (g, false) := by
  unfold launch
  rw [if_neg h, hf]

theorem launch_falsy {g : G} {f : Nat → Bool} (s : Nat) (o : Opts) (cb : Nat)
    (h : ¬ g.active.length = g.concurrent) (hf : g.factory = some f)
    (hs : f s = false) :
    launch g s o cb = (g, false) := by
  unfold launch
  rw [if_neg h, hf]
  simp [hs]

theorem launch_ok {g : G} {f : Nat → Bool} (s : Nat) (o : Opts) (cb : Nat)
    (h : ¬ g.active.length = g.concurrent) (hf : g.factory = some f)
    (hs : f s = true) :
    launch g s o cb =
      ({ g with
          ids := g.ids + 1
          armed := g.armed ++ [g.ids]
          active := g.active ++
            [Round.make g.ids s (effRetries g o) (effTimeout g o) cb o.message] },
        true) := by
  unfold launch
  rw [if_neg h, hf]
  simp only [hs, if_pos]
  rfl

theorem next_nil {g : G} (h : g.queue = []) : next g = (g, false) := by
  unfold next
  rw [h]

theorem next_full {g : G} {s : Nat} {o : Opts} {cb : Nat}
    {rest : List (Nat × Opts × Nat)} (h : g.queue = (s, o, cb) :: rest)
    (hl : g.active.length = g.concurrent) : next g = (g, false) := by
  unfold next
  rw [h]
  simp [hl]

theorem next_cons {g : G} {s : Nat} {o : Opts} {cb : Nat}
    {rest : List (Nat × Opts × Nat)} (h : g.queue = (s, o, cb) :: rest)
    (hl : ¬ g.active.length = g.concurrent) :
    next g = launch { g with queue := rest } s o cb := by
  unfold next
  rw [h]
  simp [hl]

theorem filter_contains_cons {α : Type} (l : List α) (key : α → Nat) (a : Nat)
    (t : List Nat) :
    (l.filter (fun x => key x != a)).filter (fun x => !t.contains (key x))
      = l.filter (fun x => !(a :: t).contains (key x)) := by
  rw [List.filter_filter]
  refine List.filter_congr (fun x _ => ?_)
  cases hx : (key x == a) <;>
    cases hc : t.contains (key x) <;>
      simp only [List.contains_cons, bne, hx, hc] <;> rfl

/-- Effect of the destruction loop (lines 290-292) on a batch of
distinct active rounds: each is removed, killed, disarmed, and its
callback invoked once with the shared cancellation error. -/
theorem destroy_fold (l : List Round) (g : G)
    (hsub : ∀ r ∈ l, r ∈ g.active)
    (hga : (g.active.map Round.id).Nodup)
    (hln : (l.map Round.id).Nodup)
    (hnope : ∀ r ∈ l, r.fnNope = false)
    (hlog : ∀ r ∈ l, r.cb ∉ logCbs g)
    (hcb : (l.map Round.cb).Nodup) :
    l.foldl (fun acc r => clear acc r.id (some .cancelled) none) g =
      { g with
        active := g.active.filter (fun x => !(l.map Round.id).contains x.id)
        killed := g.killed ++ l.map Round.id
        armed := g.armed.filter (fun k => !(l.map Round.id).contains k)
        log := g.log ++ l.map (fun r => ⟨r.cb, some .cancelled, none⟩) } := by
  induction l generalizing g with
  | nil =>
    simp only [List.foldl_nil, List.map_nil, List.append_nil,
      List.contains_nil, Bool.not_false, List.filter_true]
  | cons a t ih =>
    simp only [List.map_cons, List.nodup_cons] at hln hcb
    have ha : a ∈ g.active := hsub a (List.mem_cons_self a t)
    have hanope : a.fnNope = false := hnope a (List.mem_cons_self a t)
    have halog : a.cb ∉ logCbs g := hlog a (List.mem_cons_self a t)
    have hcl := clear_mem ha hga (some .cancelled) none
    rw [hanope] at hcl
    simp only [Bool.false_eq_true, if_false, if_neg halog] at hcl
    simp only [List.foldl_cons]
    rw [hcl]
    set g' : G := { g with
      active := g.active.filter (fun x => x.id != a.id)
      killed := g.killed ++ [a.id]
      armed := g.armed.filter (fun k => k != a.id)
      log := g.log ++ [⟨a.cb, some .cancelled, none⟩] } with hg'
    have hsub' : ∀ r ∈ t, r ∈ g'.active := by
      intro r hrt
      have hrg : r ∈ g.active := hsub r (List.mem_cons_of_mem a hrt)
      have hne : (r.id != a.id) = true := by
        simp only [bne_iff_ne, ne_eq]
        intro he
        exact hln.1 (he ▸ List.mem_map_of_mem Round.id hrt)
      exact List.mem_filter.2 ⟨hrg, hne⟩
    have hga' : (g'.active.map Round.id).Nodup :=
      ((List.filter_sublist g.active).map Round.id).nodup hga
    have hlog' : ∀ r ∈ t, r.cb ∉ logCbs g' := by
      intro r hrt
      have h1 : r.cb ∉ logCbs g := hlog r (List.mem_cons_of_mem a hrt)
      have h2 : r.cb ≠ a.cb := by
        intro he
        exact hcb.1 (he ▸ List.mem_map_of_mem Round.cb hrt)
      simp only [logCbs, List.map_append, List.mem_append, List.map_cons,
        List.map_nil, List.mem_singleton]
      rintro (h | h)
      · exact h1 h
      · exact h2 h
    have hrec := ih g' hsub' hga' hln.2
      (fun r hrt => hnope r (List.mem_cons_of_mem a hrt)) hlog' hcb.2
    rw [hrec]
    have hact : (g.active.filter (fun x => x.id != a.id)).filter
          (fun x => !(t.map Round.id).contains x.id)
        = g.active.filter
            (fun x => !((a.id :: t.map Round.id)).contains x.id) :=
      filter_contains_cons g.active Round.id a.id (t.map Round.id)
    have harm : (g.armed.filter (fun k => k != a.id)).filter
          (fun k => !(t.map Round.id).contains k)
        = g.armed.filter (fun k => !((a.id :: t.map Round.id)).contains k) :=
      filter_contains_cons g.armed (fun k => k) a.id (t.map Round.id)
    simp only [hg', hact, harm, List.append_assoc, List.singleton_append,
      List.map_cons]

theorem count3 {g : G} (c : Nat) :
    (refCbs g).count c
      = (g.active.map Round.cb).count c + (queueCbs g).count c
        + (logCbs g).count c := by
  simp [refCbs, List.count_append, Nat.add_assoc]

/-- Unpacking the callback-uniqueness invariant into its six
consequences. -/
theorem refCbs_parts {g : G} (h : (refCbs g).Nodup) :
    (g.active.map Round.cb).Nodup ∧ (queueCbs g).Nodup ∧ (logCbs g).Nodup
    ∧ (∀ c, c ∈ g.active.map Round.cb → c ∉ queueCbs g)
    ∧ (∀ c, c ∈ g.active.map Round.cb → c ∉ logCbs g)
    ∧ (∀ c, c ∈ queueCbs g → c ∉ logCbs g) := by
  rw [List.nodup_iff_count_le_one] at h
  have hc : ∀ c, (g.active.map Round.cb).count c + (queueCbs g).count c
      + (logCbs g).count c ≤ 1 := by
    intro c
    have := h c
    rw [count3] at this
    exact this
  refine ⟨?_, ?_, ?_, ?_, ?_, ?_⟩
  · rw [List.nodup_iff_count_le_one]
    intro a
    have := hc a
    omega
  · rw [List.nodup_iff_count_le_one]
    intro a
    have := hc a
    omega
  · rw [List.nodup_iff_count_le_one]
    intro a
    have := hc a
    omega
  · intro c h1 h2
    have p1 := List.count_pos_iff.2 h1
    have p2 := List.count_pos_iff.2 h2
    have := hc c
    omega
  · intro c h1 h2
    have p1 := List.count_pos_iff.2 h1
    have p2 := List.count_pos_iff.2 h2
    have := hc c
    omega
  · intro c h1 h2
    have p1 := List.count_pos_iff.2 h1
    have p2 := List.count_pos_iff.2 h2
    have := hc c
    omega

/-- `destroy()` on a live instance under the invariant: every active
round's callback and every queued callback is invoked with the shared
cancellation error, workers are killed, and the instance is torn
down. -/
theorem destroy_spec {g : G} (h : Inv g) (ht : g.timers = true) :
    destroy g =
      ({ g with
          active := []
          queue := []
          armed := []
          timers := false
          factory := none
          killed := g.killed ++ g.active.map Round.id
          log := g.log ++ g.active.map (fun r => ⟨r.cb, some .cancelled, none⟩)
            ++ g.queue.map
              (fun (q : Nat × Opts × Nat) => (⟨q.2.2, some .cancelled, none⟩ : CbCall)) },
        true) := by
  have hparts := refCbs_parts h.cbsNodup
  have hlog : ∀ r ∈ g.active, r.cb ∉ logCbs g := fun r hr =>
    hparts.2.2.2.2.1 r.cb (List.mem_map_of_mem Round.cb hr)
  have hcb : (g.active.map Round.cb).Nodup := hparts.1
  have hfold := destroy_fold g.active g (fun r hr => hr) h.idsNodup h.idsNodup
    h.noNope hlog hcb
  have htne : ¬ g.timers = false := by simp [ht]
  unfold destroy
  rw [if_neg htne, hfold]

theorem nodup_of_count_le {l1 l2 : List Nat}
    (h : ∀ c, l1.count c ≤ l2.count c) (h2 : l2.Nodup) : l1.Nodup := by
  rw [List.nodup_iff_count_le_one] at h2 ⊢
  intro a
  exact le_trans (h a) (h2 a)

theorem mem_of_count_le {l1 l2 : List Nat}
    (h : ∀ c, l1.count c ≤ l2.count c) {c : Nat} (hm : c ∈ l1) : c ∈ l2 :=
  List.count_pos_iff.1 (lt_of_lt_of_le (List.count_pos_iff.2 hm) (h c))

/-- `clear` of an active round preserves the invariant; the referenced
callback identities are merely permuted (the owner moves from the
active segment into the log). -/
theorem clear_inv {g : G} {r : Round} (h : Inv g) (hr : r ∈ g.active)
    (err : Option Err) (msgs : Option (List Nat)) :
    Inv (clear g r.id err msgs)
    ∧ (∀ c, (refCbs (clear g r.id err msgs)).count c = (refCbs g).count c)
    ∧ (clear g r.id err msgs).used = g.used
    ∧ (clear g r.id err msgs).timers = g.timers
    ∧ (clear g r.id err msgs).queue = g.queue := by
  have hnope : r.fnNope = false := h.noNope r hr
  have hparts := refCbs_parts h.cbsNodup
  have hlogr : r.cb ∉ logCbs g :=
    hparts.2.2.2.2.1 r.cb (List.mem_map_of_mem Round.cb hr)
  have hcl := clear_mem hr h.idsNodup err msgs
  rw [hnope] at hcl
  simp only [Bool.false_eq_true, if_false, if_neg hlogr] at hcl
  rw [hcl]
  have hP := List.perm_iff_count.1 (cb_map_filter_ne hr h.idsNodup)
  have hcount : ∀ c,
      (refCbs { g with
        active := g.active.filter (fun x => x.id != r.id)
        killed := g.killed ++ [r.id]
        armed := g.armed.filter (fun k => k != r.id)
        log := g.log ++ [⟨r.cb, err, msgs⟩] }).count c = (refCbs g).count c := by
    intro c
    have hPc := hP c
    simp only [List.count_append, List.count_cons, List.count_nil] at hPc
    simp only [refCbs, queueCbs, logCbs, List.map_append, List.count_append,
      List.map_cons, List.map_nil, List.count_cons, List.count_nil]
    omega
  refine ⟨?_, hcount, rfl, rfl, rfl⟩
  refine { idsNodup := ?_, idsLt := ?_, noNope := ?_, cbsNodup := ?_,
           cbsUsed := ?_, activeLe := ?_, armedEq := ?_, handlerEmpty := ?_,
           destroyedInactive := ?_ }
  · exact ((List.filter_sublist g.active).map Round.id).nodup h.idsNodup
  · exact fun x hx => h.idsLt x (List.mem_of_mem_filter hx)
  · exact fun x hx => h.noNope x (List.mem_of_mem_filter hx)
  · exact nodup_of_count_le (fun c => le_of_eq (hcount c)) h.cbsNodup
  · exact fun c hc =>
      h.cbsUsed c (mem_of_count_le (fun c => le_of_eq (hcount c)) hc)
  · exact le_trans (List.length_filter_le _ _) h.activeLe
  · show g.armed.filter (fun k => k != r.id) = _
    rw [h.armedEq, ← map_filter_ne g.active Round.id r.id (fun x => rfl)]
  · exact fun x hx => h.handlerEmpty x (List.mem_of_mem_filter hx)
  · intro hf
    have := (h.destroyedInactive hf).1
    rw [this] at hr
    cases hr

theorem nodup_count_add {L1 L2 : List Nat} {cb : Nat} (h2 : L2.Nodup)
    (hcb : cb ∉ L2)
    (hrel : ∀ c, L1.count c = L2.count c + List.count c [cb]) :
    L1.Nodup ∧ ∀ c ∈ L1, c ∈ L2 ∨ c = cb := by
  have h0 : L2.count cb = 0 := List.count_eq_zero.2 hcb
  have h1 := List.nodup_iff_count_le_one.1 h2
  constructor
  · rw [List.nodup_iff_count_le_one]
    intro a
    have hr := hrel a
    have hg := h1 a
    by_cases hac : a = cb
    · subst hac
      simp only [List.count_cons, List.count_nil, beq_self_eq_true,
        if_true] at hr
      omega
    · have : List.count a [cb] = 0 := by
        simp only [List.count_cons, List.count_nil]
        have : (cb == a) = false := beq_eq_false_iff_ne.2 (fun he => hac he.symm)
        simp [this]
      omega
  · intro c hc
    by_cases hac : c = cb
    · exact Or.inr hac
    · refine Or.inl ?_
      have hr := hrel c
      have hpos := List.count_pos_iff.2 hc
      have : List.count c [cb] = 0 := by
        simp only [List.count_cons, List.count_nil]
        have : (cb == c) = false := beq_eq_false_iff_ne.2 (fun he => hac he.symm)
        simp [this]
      refine List.count_pos_iff.1 ?_
      omega

/-- `launch` with a fresh callback identity on a live instance
preserves the invariant; it references at most one new callback
identity, the supplied one. -/
theorem launch_inv {g : G} (h : Inv g) (ht : g.timers = true) (s : Nat)
    (o : Opts) {cb : Nat} (hu : cb ∈ g.used) (hcb : cb ∉ refCbs g) :
    Inv (launch g s o cb).1
    ∧ (∀ c ∈ refCbs (launch g s o cb).1, c ∈ refCbs g ∨ c = cb)
    ∧ (launch g s o cb).1.used = g.used
    ∧ (launch g s o cb).1.timers = g.timers := by
  by_cases hl : g.active.length = g.concurrent
  · rw [launch_queue s o cb hl]
    have hrel : ∀ c,
        (refCbs { g with queue := g.queue ++ [(s, defOpts g o, cb)] }).count c
          = (refCbs g).count c + List.count c [cb] := by
      intro c
      simp only [refCbs, queueCbs, logCbs, List.map_append, List.count_append,
        List.map_cons, List.map_nil, List.count_cons, List.count_nil]
      omega
    have hnd := nodup_count_add h.cbsNodup hcb hrel
    refine ⟨?_, fun c hc => hnd.2 c hc, rfl, rfl⟩
    refine { idsNodup := h.idsNodup, idsLt := h.idsLt, noNope := h.noNope,
             cbsNodup := hnd.1, cbsUsed := ?_, activeLe := h.activeLe,
             armedEq := h.armedEq, handlerEmpty := h.handlerEmpty,
             destroyedInactive := ?_ }
    · intro c hc
      rcases hnd.2 c hc with hg | he
      · exact h.cbsUsed c hg
      · exact he ▸ hu
    · intro hf
      rw [ht] at hf
      cases hf
  · cases hfac : g.factory with
    | none =>
      rw [launch_none s o cb hl hfac]
      exact ⟨h, fun c hc => Or.inl hc, rfl, rfl⟩
    | some f =>
      by_cases hs : f s = true
      · rw [launch_ok s o cb hl hfac hs]
        have hrel : ∀ c,
            (refCbs { g with
              ids := g.ids + 1
              armed := g.armed ++ [g.ids]
              active := g.active ++
                [Round.make g.ids s (effRetries g o) (effTimeout g o) cb
                  o.message] }).count c
            = (refCbs g).count c + List.count c [cb] := by
          intro c
          simp only [refCbs, queueCbs, logCbs, Round.make, List.map_append,
            List.count_append, List.map_cons, List.map_nil, List.count_cons,
            List.count_nil]
          omega
        have hnd := nodup_count_add h.cbsNodup hcb hrel
        refine ⟨?_, fun c hc => hnd.2 c hc, rfl, rfl⟩
        refine { idsNodup := ?_, idsLt := ?_, noNope := ?_,
                 cbsNodup := hnd.1, cbsUsed := ?_, activeLe := ?_,
                 armedEq := ?_, handlerEmpty := ?_, destroyedInactive := ?_ }
        · show ((g.active ++ [_]).map Round.id).Nodup
          rw [List.map_append]
          rw [List.nodup_append]
          refine ⟨h.idsNodup, ?_, ?_⟩
          · simp [Round.make]
          · intro x hx
            have := h.idsLt
            simp only [Round.make, List.map_cons, List.map_nil,
              List.mem_singleton]
            intro he
            rcases List.mem_map.1 hx with ⟨y, hy, hxy⟩
            have := h.idsLt y hy
            omega
        · intro x hx
          rcases List.mem_append.1 hx with hg | hn
          · exact lt_trans (h.idsLt x hg) (Nat.lt_succ_self _)
          · rw [List.mem_singleton] at hn
            rw [hn]
            exact Nat.lt_succ_self _
        · intro x hx
          rcases List.mem_append.1 hx with hg | hn
          · exact h.noNope x hg
          · rw [List.mem_singleton] at hn
            rw [hn]
            rfl
        · intro c hc
          rcases hnd.2 c hc with hg | he
          · exact h.cbsUsed c hg
          · exact he ▸ hu
        · have h1 : g.active.length < g.concurrent :=
            lt_of_le_of_ne h.activeLe hl
          simp only [List.length_append, List.length_cons, List.length_nil]
          omega
        · show g.armed ++ [g.ids] = _
          rw [List.map_append, h.armedEq]
          rfl
        · intro x hx
          rcases List.mem_append.1 hx with hg | hn
          · exact h.handlerEmpty x hg
          · rw [List.mem_singleton] at hn
            rw [hn]
            intro _
            rfl
        · intro hf
          rw [ht] at hf
          cases hf
      · have hs' : f s = false := by
          cases hb : f s
          · rfl
          · exact absurd hb hs
        rw [launch_falsy s o cb hl hfac hs']
        exact ⟨h, fun c hc => Or.inl hc, rfl, rfl⟩

/-- `next` on a live instance preserves the invariant and introduces
no new callback identity. -/
theorem next_inv {g : G} (h : Inv g) (ht : g.timers = true) :
    Inv (next g).1
    ∧ (∀ c ∈ refCbs (next g).1, c ∈ refCbs g)
    ∧ (next g).1.used = g.used := by
  cases hq : g.queue with
  | nil =>
    rw [next_nil hq]
    exact ⟨h, fun c hc => hc, rfl⟩
  | cons e rest =>
    rcases e with ⟨s, o, qcb⟩
    by_cases hl : g.active.length = g.concurrent
    · rw [next_full hq hl]
      exact ⟨h, fun c hc => hc, rfl⟩
    · rw [next_cons hq hl]
      have hqm : qcb ∈ refCbs g := by
        simp [refCbs, queueCbs, hq]
      have hrel : ∀ c, (refCbs g).count c
          = (refCbs { g with queue := rest }).count c + List.count c [qcb] := by
        intro c
        simp only [refCbs, queueCbs, logCbs, hq, List.map_cons,
          List.count_append, List.count_cons, List.count_nil]
        omega
      have hle : ∀ c, (refCbs { g with queue := rest }).count c
          ≤ (refCbs g).count c := by
        intro c
        have := hrel c
        omega
      have hgd : Inv { g with queue := rest } :=
        { idsNodup := h.idsNodup, idsLt := h.idsLt, noNope := h.noNope,
          cbsNodup := nodup_of_count_le hle h.cbsNodup,
          cbsUsed := fun c hc => h.cbsUsed c (mem_of_count_le hle hc),
          activeLe := h.activeLe, armedEq := h.armedEq,
          handlerEmpty := h.handlerEmpty,
          destroyedInactive := fun hf => by rw [ht] at hf; cases hf }
      have hu : qcb ∈ ({ g with queue := rest } : G).used := h.cbsUsed qcb hqm
      have hnotin : qcb ∉ refCbs { g with queue := rest } := by
        intro hmem
        have h1 := List.nodup_iff_count_le_one.1 h.cbsNodup qcb
        have h2 := List.count_pos_iff.2 hmem
        have h3 := List.count_pos_iff.2 hqm
        have h4 := hrel qcb
        simp only [List.count_cons, List.count_nil, beq_self_eq_true,
          if_true] at h4
        omega
      have hli := launch_inv hgd ht s o hu hnotin
      refine ⟨hli.1, ?_, hli.2.2.1⟩
      intro c hc
      rcases hli.2.1 c hc with hm | he
      · exact mem_of_count_le hle hm
      · exact he ▸ hqm

/-- `again` can only answer `false` on a live instance with an
exhausted round, leaving the state untouched. -/
theorem again_false {g g1 : G} {r : Round} (hA : again g r = (g1, false)) :
    g1 = g ∧ g.timers = true ∧ r.retries = 0 := by
  unfold again at hA
  by_cases ht : g.timers = false
  · rw [if_pos ht] at hA
    cases hA
  · rw [if_neg ht] at hA
    have ht' : g.timers = true := by
      cases hb : g.timers
      · exact absurd hb ht
      · rfl
    by_cases hz : r.retries = 0
    · rw [if_pos hz] at hA
      exact ⟨(Prod.mk.injEq _ _ _ _ ▸ hA).1.symm ▸ rfl, ht', hz⟩
    · rw [if_neg hz] at hA
      cases hA

/-- The retry transition preserves the invariant and introduces no new
callback identity (the relaunched round keeps its predecessor's). -/
theorem again_inv {g : G} {r : Round} (h : Inv g) (hr : r ∈ g.active)
    (ht : g.timers = true) :
    Inv (again g r).1
    ∧ (∀ c ∈ refCbs (again g r).1, c ∈ refCbs g)
    ∧ (again g r).1.used = g.used
    ∧ (again g r).1.timers = g.timers := by
  by_cases hz : r.retries = 0
  · have : again g r = (g, false) := by
      unfold again
      rw [if_neg (by simp [ht]), if_pos hz]
    rw [this]
    exact ⟨h, fun c hc => hc, rfl, rfl⟩
  · rw [again_go hr h.idsNodup ht hz]
    have hrm : r.cb ∈ refCbs g := by
      simp only [refCbs, List.mem_append]
      exact Or.inl (Or.inl (List.mem_map_of_mem Round.cb hr))
    have hP := List.perm_iff_count.1 (cb_map_filter_ne hr h.idsNodup)
    have hrel : ∀ c, (refCbs g).count c
        = (refCbs { g with
            active := g.active.filter (fun x => x.id != r.id)
            killed := g.killed ++ [r.id]
            armed := g.armed.filter (fun k => k != r.id) }).count c
          + List.count c [r.cb] := by
      intro c
      have hPc := hP c
      simp only [List.count_append] at hPc
      simp only [refCbs, queueCbs, logCbs, List.count_append]
      omega
    have hle : ∀ c, (refCbs { g with
          active := g.active.filter (fun x => x.id != r.id)
          killed := g.killed ++ [r.id]
          armed := g.armed.filter (fun k => k != r.id) }).count c
        ≤ (refCbs g).count c := by
      intro c
      have := hrel c
      omega
    have hgc : Inv { g with
        active := g.active.filter (fun x => x.id != r.id)
        killed := g.killed ++ [r.id]
        armed := g.armed.filter (fun k => k != r.id) } :=
      { idsNodup := ((List.filter_sublist g.active).map Round.id).nodup h.idsNodup
        idsLt := fun x hx => h.idsLt x (List.mem_of_mem_filter hx)
        noNope := fun x hx => h.noNope x (List.mem_of_mem_filter hx)
        cbsNodup := nodup_of_count_le hle h.cbsNodup
        cbsUsed := fun c hc => h.cbsUsed c (mem_of_count_le hle hc)
        activeLe := le_trans (List.length_filter_le _ _) h.activeLe
        armedEq := by
          show g.armed.filter (fun k => k != r.id) = _
          rw [h.armedEq, ← map_filter_ne g.active Round.id r.id (fun x => rfl)]
        handlerEmpty := fun x hx => h.handlerEmpty x (List.mem_of_mem_filter hx)
        destroyedInactive := fun hf => by rw [ht] at hf; cases hf }
    have hu : r.cb ∈ g.used := h.cbsUsed r.cb hrm
    have hnotin : r.cb ∉ refCbs { g with
        active := g.active.filter (fun x => x.id != r.id)
        killed := g.killed ++ [r.id]
        armed := g.armed.filter (fun k => k != r.id) } := by
      intro hmem
      have h1 := List.nodup_iff_count_le_one.1 h.cbsNodup r.cb
      have h2 := List.count_pos_iff.2 hmem
      have h3 := List.count_pos_iff.2 hrm
      have h4 := hrel r.cb
      simp only [List.count_cons, List.count_nil, beq_self_eq_true,
        if_true] at h4
      omega
    have hli := launch_inv hgc ht r.spec ⟨some r.retries, some r.timeout, r.message⟩
      hu hnotin
    refine ⟨hli.1, ?_, hli.2.2.1, hli.2.2.2⟩
    intro c hc
    rcases hli.2.1 c hc with hm | he
    · exact mem_of_count_le hle hm
    · exact he ▸ hrm

/-- The shared terminal path: `clear` with an outcome followed by
`next` preserves the invariant and introduces no new callback. -/
theorem clearNext_inv {g : G} {r : Round} (h : Inv g) (hr : r ∈ g.active)
    (ht : g.timers = true) (err : Option Err) (msgs : Option (List Nat)) :
    Inv ((next (clear g r.id err msgs)).1)
    ∧ (∀ c ∈ refCbs ((next (clear g r.id err msgs)).1), c ∈ refCbs g)
    ∧ ((next (clear g r.id err msgs)).1).used = g.used := by
  have hcl := clear_inv h hr err msgs
  have ht1 : (clear g r.id err msgs).timers = true := hcl.2.2.2.1.symm ▸ ht
  have hn := next_inv hcl.1 ht1
  refine ⟨hn.1, ?_, ?_⟩
  · intro c hc
    have h1 := hn.2.1 c hc
    exact mem_of_count_le (fun c => le_of_eq (hcl.2.1 c)) h1
  · rw [hn.2.2, hcl.2.2.1]

/-- The unified `retry` handler preserves the invariant and introduces
no new callback identity. -/
theorem retry_inv {g : G} {r : Round} (h : Inv g) (hr : r ∈ g.active)
    (ht : g.timers = true) (a : RArg) :
    Inv (retry g r a)
    ∧ (∀ c ∈ refCbs (retry g r a), c ∈ refCbs g)
    ∧ (retry g r a).used = g.used := by
  cases a with
  | code n =>
    cases n with
    | zero => exact clearNext_inv h hr ht none (some r.msgs)
    | succ n =>
      rcases hA : again g r with ⟨g1, b⟩
      cases b with
      | true =>
        have hred : retry g r (.code (n + 1)) = g1 := by
          simp [retry, hA]
        rw [hred]
        have hag := again_inv h hr ht
        rw [hA] at hag
        exact ⟨hag.1, hag.2.1, hag.2.2.1⟩
      | false =>
        obtain ⟨he, _, _⟩ := again_false hA
        have hred : retry g r (.code (n + 1))
            = (next (clear g1 r.id (some .failedRetrying) (some r.msgs))).1 := by
          simp [retry, hA]
        rw [hred, he]
        exact clearNext_inv h hr ht _ _
  | err e =>
    rcases hA : again g r with ⟨g1, b⟩
    cases b with
    | true =>
      have hred : retry g r (.err e) = g1 := by
        simp [retry, hA]
      rw [hred]
      have hag := again_inv h hr ht
      rw [hA] at hag
      exact ⟨hag.1, hag.2.1, hag.2.2.1⟩
    | false =>
      obtain ⟨he, _, _⟩ := again_false hA
      have hred : retry g r (.err e)
          = (next (clear g1 r.id (some (.worker e)) (some r.msgs))).1 := by
        simp [retry, hA]
      rw [hred, he]
      exact clearNext_inv h hr ht _ _

/-- The timer handler preserves the invariant and introduces no new
callback identity. -/
theorem timeoutFire_inv {g : G} {r : Round} (h : Inv g) (hr : r ∈ g.active)
    (ht : g.timers = true) :
    Inv (timeoutFire g r)
    ∧ (∀ c ∈ refCbs (timeoutFire g r), c ∈ refCbs g)
    ∧ (timeoutFire g r).used = g.used := by
  rcases hA : again g r with ⟨g1, b⟩
  cases b with
  | true =>
    have hred : timeoutFire g r = g1 := by
      simp [timeoutFire, hA]
    rw [hred]
    have hag := again_inv h hr ht
    rw [hA] at hag
    exact ⟨hag.1, hag.2.1, hag.2.2.1⟩
  | false =>
    obtain ⟨he, _, _⟩ := again_false hA
    have hred : timeoutFire g r
        = (next (clear g1 r.id (some (.timedOut r.timeout)) (some r.msgs))).1 := by
      simp [timeoutFire, hA]
    rw [hred, he]
    exact clearNext_inv h hr ht _ _

/-- Message delivery preserves the invariant and the referenced
callback identities. -/
theorem onMessage_inv {g : G} {r : Round} (h : Inv g) (hr : r ∈ g.active)
    (m : Nat) :
    Inv (onMessage g r m)
    ∧ refCbs (onMessage g r m) = refCbs g
    ∧ (onMessage g r m).used = g.used := by
  unfold onMessage
  by_cases hm : r.message = true
  · rw [if_pos hm]
    exact ⟨{ idsNodup := h.idsNodup, idsLt := h.idsLt, noNope := h.noNope,
             cbsNodup := h.cbsNodup, cbsUsed := h.cbsUsed,
             activeLe := h.activeLe, armedEq := h.armedEq,
             handlerEmpty := h.handlerEmpty,
             destroyedInactive := h.destroyedInactive }, rfl, rfl⟩
  · rw [if_neg hm]
    have hid : ∀ x : Round,
        Round.id (if x.id == r.id then { x with msgs := x.msgs ++ [m] } else x)
          = x.id := by
      intro x
      by_cases hx : (x.id == r.id) = true <;> simp [hx]
    have hcb : ∀ x : Round,
        Round.cb (if x.id == r.id then { x with msgs := x.msgs ++ [m] } else x)
          = x.cb := by
      intro x
      by_cases hx : (x.id == r.id) = true <;> simp [hx]
    have hmapid : (g.active.map
        (fun x => if x.id == r.id then { x with msgs := x.msgs ++ [m] } else x)).map
          Round.id = g.active.map Round.id := by
      rw [List.map_map]
      exact List.map_congr_left (fun x _ => hid x)
    have hmapcb : (g.active.map
        (fun x => if x.id == r.id then { x with msgs := x.msgs ++ [m] } else x)).map
          Round.cb = g.active.map Round.cb := by
      rw [List.map_map]
      exact List.map_congr_left (fun x _ => hcb x)
    have hrefs : refCbs { g with active :=
        (g.active.map
          (fun x => if x.id == r.id then { x with msgs := x.msgs ++ [m] } else x)) }
        = refCbs g := by
      simp only [refCbs, queueCbs, logCbs]
      rw [hmapcb]
    refine ⟨?_, hrefs, rfl⟩
    refine { idsNodup := ?_, idsLt := ?_, noNope := ?_, cbsNodup := ?_,
             cbsUsed := ?_, activeLe := ?_, armedEq := ?_, handlerEmpty := ?_,
             destroyedInactive := ?_ }
    · show ((g.active.map _).map Round.id).Nodup
      rw [hmapid]
      exact h.idsNodup
    · intro x hx
      rcases List.mem_map.1 hx with ⟨y, hy, hxy⟩
      have := h.idsLt y hy
      rw [← hxy, hid y]
      exact this
    · intro x hx
      rcases List.mem_map.1 hx with ⟨y, hy, hxy⟩
      have := h.noNope y hy
      rw [← hxy]
      by_cases hyx : (y.id == r.id) = true <;> simp [hyx, this]
    · rw [hrefs]
      exact h.cbsNodup
    · intro c hc
      rw [hrefs] at hc
      exact h.cbsUsed c hc
    · show (g.active.map _).length ≤ _
      rw [List.length_map]
      exact h.activeLe
    · show g.armed = (g.active.map _).map Round.id
      rw [hmapid]
      exact h.armedEq
    · intro x hx
      rcases List.mem_map.1 hx with ⟨y, hy, hxy⟩
      by_cases hyx : (y.id == r.id) = true
      · have hyr : y = r :=
          List.inj_on_of_nodup_map h.idsNodup hy hr (beq_iff_eq.1 hyx)
        rw [← hxy]
        simp only [hyx, if_true]
        intro hmsg
        rw [hyr] at hmsg
        exact absurd hmsg (by simp [hm])
      · rw [← hxy]
        simp only [hyx, if_false]
        exact h.handlerEmpty y hy
    · intro hf
      have hd := h.destroyedInactive hf
      rw [hd.1]
      exact ⟨rfl, hd.2⟩

/-- `destroy` preserves the invariant and introduces no new callback
identity. -/
theorem destroy_inv {g : G} (h : Inv g) :
    Inv (destroy g).1
    ∧ (∀ c ∈ refCbs (destroy g).1, c ∈ refCbs g)
    ∧ (destroy g).1.used = g.used := by
  cases htb : g.timers with
  | false =>
    have : destroy g = (g, false) := by
      unfold destroy
      rw [if_pos htb]
    rw [this]
    exact ⟨h, fun c hc => hc, rfl⟩
  | true =>
    rw [destroy_spec h htb]
    have hrefs : ∀ c, (refCbs { g with
        active := []
        queue := []
        armed := []
        timers := false
        factory := none
        killed := g.killed ++ g.active.map Round.id
        log := g.log ++ g.active.map (fun r => ⟨r.cb, some .cancelled, none⟩)
          ++ g.queue.map
            (fun (q : Nat × Opts × Nat) => (⟨q.2.2, some .cancelled, none⟩ : CbCall)) }).count c
        = (refCbs g).count c := by
      intro c
      have h1 : (g.active.map
            (fun r => (⟨r.cb, some Err.cancelled, none⟩ : CbCall))).map CbCall.cb
          = g.active.map Round.cb := by
        rw [List.map_map]
        exact List.map_congr_left (fun x _ => rfl)
      have h2 : (g.queue.map
            (fun (q : Nat × Opts × Nat) =>
              (⟨q.2.2, some Err.cancelled, none⟩ : CbCall))).map CbCall.cb
          = g.queue.map (fun (q : Nat × Opts × Nat) => q.2.2) := by
        rw [List.map_map]
        exact List.map_congr_left (fun x _ => rfl)
      simp only [refCbs, queueCbs, logCbs, List.map_append, List.map_nil,
        List.count_append, List.count_nil]
      rw [h1, h2]
      omega
    refine ⟨?_, fun c hc => mem_of_count_le (fun c => le_of_eq (hrefs c)) hc,
      rfl⟩
    refine { idsNodup := List.nodup_nil, idsLt := ?_, noNope := ?_,
             cbsNodup := nodup_of_count_le (fun c => le_of_eq (hrefs c))
               h.cbsNodup,
             cbsUsed := fun c hc =>
               h.cbsUsed c (mem_of_count_le (fun c => le_of_eq (hrefs c)) hc),
             activeLe := Nat.zero_le _, armedEq := rfl, handlerEmpty := ?_,
             destroyedInactive := fun _ => ⟨rfl, rfl⟩ }
    · intro x hx
      cases hx
    · intro x hx
      cases hx
    · intro x hx
      cases hx

/-- One event step preserves the invariant; any newly referenced
callback identity is one that had never been used before (a fresh
submission); the used set only grows. -/
theorem step_master {g : G} (h : Inv g) (e : Ev) :
    Inv (stepF g e)
    ∧ (∀ c ∈ refCbs (stepF g e), c ∈ refCbs g ∨ c ∉ g.used)
    ∧ (∀ c ∈ g.used, c ∈ (stepF g e).used) := by
  cases e with
  | launch s o cb =>
    simp only [stepF]
    by_cases hg : g.timers = true ∧ cb ∉ g.used
    · rw [if_pos hg]
      have hg' : Inv { g with used := g.used ++ [cb] } :=
        { idsNodup := h.idsNodup, idsLt := h.idsLt, noNope := h.noNope,
          cbsNodup := h.cbsNodup,
          cbsUsed := fun c hc => List.mem_append_left _ (h.cbsUsed c hc),
          activeLe := h.activeLe, armedEq := h.armedEq,
          handlerEmpty := h.handlerEmpty,
          destroyedInactive := h.destroyedInactive }
      have hu : cb ∈ ({ g with used := g.used ++ [cb] } : G).used := by
        simp
      have hcb : cb ∉ refCbs { g with used := g.used ++ [cb] } :=
        fun hmem => hg.2 (h.cbsUsed cb hmem)
      have hli := launch_inv hg' hg.1 s o hu hcb
      refine ⟨hli.1, ?_, ?_⟩
      · intro c hc
        rcases hli.2.1 c hc with hm | he
        · exact Or.inl hm
        · exact Or.inr (he ▸ hg.2)
      · intro c hc
        rw [hli.2.2.1]
        exact List.mem_append_left _ hc
    · rw [if_neg hg]
      exact ⟨h, fun c hc => Or.inl hc, fun c hc => hc⟩
  | exit id code =>
    simp only [stepF]
    cases hfr : findRound g id with
    | none => exact ⟨h, fun c hc => Or.inl hc, fun c hc => hc⟩
    | some r =>
      have hr : r ∈ g.active := List.mem_of_find?_eq_some hfr
      have ht : g.timers = true := by
        cases htb : g.timers
        · rw [(h.destroyedInactive htb).1] at hr
          cases hr
        · rfl
      have hri := retry_inv h hr ht (.code code)
      exact ⟨hri.1, fun c hc => Or.inl (hri.2.1 c hc),
        fun c hc => hri.2.2 ▸ hc⟩
  | error id e =>
    simp only [stepF]
    cases hfr : findRound g id with
    | none => exact ⟨h, fun c hc => Or.inl hc, fun c hc => hc⟩
    | some r =>
      have hr : r ∈ g.active := List.mem_of_find?_eq_some hfr
      have ht : g.timers = true := by
        cases htb : g.timers
        · rw [(h.destroyedInactive htb).1] at hr
          cases hr
        · rfl
      have hri := retry_inv h hr ht (.err e)
      exact ⟨hri.1, fun c hc => Or.inl (hri.2.1 c hc),
        fun c hc => hri.2.2 ▸ hc⟩
  | message id m =>
    simp only [stepF]
    cases hfr : findRound g id with
    | none => exact ⟨h, fun c hc => Or.inl hc, fun c hc => hc⟩
    | some r =>
      have hr : r ∈ g.active := List.mem_of_find?_eq_some hfr
      have hmi := onMessage_inv h hr m
      exact ⟨hmi.1, fun c hc => Or.inl (hmi.2.1 ▸ hc),
        fun c hc => hmi.2.2 ▸ hc⟩
  | timeout id =>
    simp only [stepF]
    by_cases ha : id ∈ g.armed
    · rw [if_pos ha]
      cases hfr : findRound g id with
      | none => exact ⟨h, fun c hc => Or.inl hc, fun c hc => hc⟩
      | some r =>
        have hr : r ∈ g.active := List.mem_of_find?_eq_some hfr
        have ht : g.timers = true := by
          cases htb : g.timers
          · rw [(h.destroyedInactive htb).1] at hr
            cases hr
          · rfl
        have hti := timeoutFire_inv h hr ht
        exact ⟨hti.1, fun c hc => Or.inl (hti.2.1 c hc),
          fun c hc => hti.2.2 ▸ hc⟩
    · rw [if_neg ha]
      exact ⟨h, fun c hc => Or.inl hc, fun c hc => hc⟩
  | reload f =>
    simp only [stepF]
    refine ⟨{ idsNodup := h.idsNodup, idsLt := h.idsLt, noNope := h.noNope,
              cbsNodup := h.cbsNodup, cbsUsed := h.cbsUsed,
              activeLe := h.activeLe, armedEq := h.armedEq,
              handlerEmpty := h.handlerEmpty,
              destroyedInactive := h.destroyedInactive },
      fun c hc => Or.inl hc, fun c hc => hc⟩
  | destroy =>
    simp only [stepF]
    have hdi := destroy_inv h
    exact ⟨hdi.1, fun c hc => Or.inl (hdi.2.1 c hc),
      fun c hc => hdi.2.2 ▸ hc⟩

/-- The invariant holds in every state reachable from a state
satisfying it. -/
theorem reach_inv {g0 g : G} (h0 : Inv g0) (hR : Reach g0 g) : Inv g := by
  induction hR with
  | refl => exact h0
  | step e hR ih => exact (step_master ih e).1

/-- Once a callback identity has been handed in but is no longer
referenced anywhere in the state (its submission was dropped), no
reachable future state ever references it again — in particular it is
never invoked. -/
theorem reach_dead {g0 g : G} (h0 : Inv g0) {cb : Nat}
    (hu : cb ∈ g0.used) (hd : cb ∉ refCbs g0) (hR : Reach g0 g) :
    cb ∈ g.used ∧ cb ∉ refCbs g := by
  induction hR with
  | refl => exact ⟨hu, hd⟩
  | step e hR ih =>
    have hinv := reach_inv h0 hR
    have hm := step_master hinv e
    refine ⟨hm.2.2 cb ih.1, fun hc => ?_⟩
    rcases hm.2.1 cb hc with hold | hnew
    · exact ih.2 hold
    · exact hnew ih.1

/-- A freshly constructed instance satisfies the invariant. -/
theorem init_inv (o : CtorOpts) : Inv (gjallarhorn o) :=
  { idsNodup := List.nodup_nil
    idsLt := fun x hx => by cases hx
    noNope := fun x hx => by cases hx
    cbsNodup := List.nodup_nil
    cbsUsed := fun c hc => by cases hc
    activeLe := Nat.zero_le _
    armedEq := rfl
    handlerEmpty := fun x hx => by cases hx
    destroyedInactive := fun hf => by cases hf }

/-- `launch` never writes the log (callbacks fire only through
`clear`). -/
theorem launch_log (g : G) (s : Nat) (o : Opts) (cb : Nat) :
    (launch g s o cb).1.log = g.log := by
  unfold launch
  by_cases hl : g.active.length = g.concurrent
  · rw [if_pos hl]
  · rw [if_neg hl]
    cases g.factory with
    | none => rfl
    | some f => cases hb : f s <;> simp [hb, tracking]

/-- `next` never writes the log. -/
theorem next_log (g : G) : (next g).1.log = g.log := by
  cases hq : g.queue with
  | nil => rw [next_nil hq]
  | cons e rest =>
    rcases e with ⟨s, o, cb⟩
    by_cases hl : g.active.length = g.concurrent
    · rw [next_full hq hl]
    · rw [next_cons hq hl]
      exact launch_log _ _ _ _

/-- Shape of a successful retry transition: the failed round is
removed, killed and disarmed without firing its callback, and a fresh
round with the decremented budget, same spec, timeout, message handler
and callback is tracked immediately, bypassing the queue. -/
theorem retry_shape {g : G} {r : Round} (h : Inv g) (hr : r ∈ g.active)
    (ht : g.timers = true) (hz : ¬ r.retries = 0) {f : Nat → Bool}
    (hfac : g.factory = some f) (hf : f r.spec = true) :
    again g r =
      ({ g with
          ids := g.ids + 1
          active := g.active.filter (fun x => x.id != r.id)
            ++ [Round.make g.ids r.spec r.retries r.timeout r.cb r.message]
          armed := g.armed.filter (fun k => k != r.id) ++ [g.ids]
          killed := g.killed ++ [r.id] }, true) := by
  rw [again_go hr h.idsNodup ht hz]
  have hlen : ¬ (g.active.filter (fun x => x.id != r.id)).length = g.concurrent := by
    have h1 := length_filter_ne hr h.idsNodup
    have h2 := h.activeLe
    omega
  rw [launch_ok (g := { g with
      active := g.active.filter (fun x => x.id != r.id)
      killed := g.killed ++ [r.id]
      armed := g.armed.filter (fun k => k != r.id) })
    r.spec ⟨some r.retries, some r.timeout, r.message⟩ r.cb hlen hfac hf]
  rfl

theorem ex1_inv : Inv ex1 :=
  reach_inv (init_inv exCtor) (Reach.step _ Reach.refl)

theorem ex3_inv : Inv ex3 :=
  reach_inv (init_inv exCtor)
    (Reach.step _ (Reach.step _ (Reach.step _ Reach.refl)))

theorem foldl_callFn_concurrent (l : List Round) (g : G) (err : Option Err)
    (msgs : Option (List Nat)) :
    (l.foldl (fun acc r => callFn acc r err msgs) g).concurrent
      = g.concurrent := by
  induction l generalizing g with
  | nil => rfl
  | cons a t ih =>
    simp only [List.foldl_cons]
    rw [ih (callFn g a err msgs)]
    unfold callFn
    split_ifs <;> rfl

theorem clear_concurrent (g : G) (id : Nat) (err : Option Err)
    (msgs : Option (List Nat)) :
    (clear g id err msgs).concurrent = g.concurrent := by
  unfold clear
  exact foldl_callFn_concurrent _ _ _ _

theorem launch_concurrent (g : G) (s : Nat) (o : Opts) (cb : Nat) :
    (launch g s o cb).1.concurrent = g.concurrent := by
  unfold launch
  by_cases hl : g.active.length = g.concurrent
  · rw [if_pos hl]
  · rw [if_neg hl]
    cases g.factory with
    | none => rfl
    | some f => cases hb : f s <;> simp [hb, tracking]

theorem next_concurrent (g : G) : (next g).1.concurrent = g.concurrent := by
  cases hq : g.queue with
  | nil => rw [next_nil hq]
  | cons e rest =>
    rcases e with ⟨s, o, cb⟩
    by_cases hl : g.active.length = g.concurrent
    · rw [next_full hq hl]
    · rw [next_cons hq hl]
      exact launch_concurrent _ _ _ _

theorem again_concurrent (g : G) (r : Round) :
    (again g r).1.concurrent = g.concurrent := by
  unfold again
  by_cases ht : g.timers = false
  · rw [if_pos ht]
  · rw [if_neg ht]
    by_cases hz : r.retries = 0
    · rw [if_pos hz]
    · rw [if_neg hz]
      show (launch _ _ _ _).1.concurrent = _
      rw [launch_concurrent, clear_concurrent]
      rfl

theorem retry_concurrent (g : G) (r : Round) (a : RArg) :
    (retry g r a).concurrent = g.concurrent := by
  cases a with
  | code n =>
    cases n with
    | zero =>
      show (next _).1.concurrent = _
      rw [next_concurrent, clear_concurrent]
    | succ n =>
      rcases hA : again g r with ⟨g1, b⟩
      have hg1 : g1.concurrent = g.concurrent := by
        have := again_concurrent g r
        rw [hA] at this
        exact this
      cases b with
      | true => simp only [retry, hA]; exact hg1
      | false =>
        simp only [retry, hA]
        rw [next_concurrent, clear_concurrent]
        exact hg1
  | err e =>
    rcases hA : again g r with ⟨g1, b⟩
    have hg1 : g1.concurrent = g.concurrent := by
      have := again_concurrent g r
      rw [hA] at this
      exact this
    cases b with
    | true => simp only [retry, hA]; exact hg1
    | false =>
      simp only [retry, hA]
      rw [next_concurrent, clear_concurrent]
      exact hg1

theorem timeoutFire_concurrent (g : G) (r : Round) :
    (timeoutFire g r).concurrent = g.concurrent := by
  rcases hA : again g r with ⟨g1, b⟩
  have hg1 : g1.concurrent = g.concurrent := by
    have := again_concurrent g r
    rw [hA] at this
    exact this
  cases b with
  | true => simp only [timeoutFire, hA]; exact hg1
  | false =>
    simp only [timeoutFire, hA]
    rw [next_concurrent, clear_concurrent]
    exact hg1

theorem onMessage_concurrent (g : G) (r : Round) (m : Nat) :
    (onMessage g r m).concurrent = g.concurrent := by
  unfold onMessage
  split_ifs <;> rfl

theorem foldl_clear_concurrent (l : List Round) (g : G) :
    (l.foldl (fun acc r => clear acc r.id (some .cancelled) none) g).concurrent
      = g.concurrent := by
  induction l generalizing g with
  | nil => rfl
  | cons a t ih =>
    simp only [List.foldl_cons]
    rw [ih (clear g a.id (some .cancelled) none), clear_concurrent]

theorem destroy_concurrent (g : G) : (destroy g).1.concurrent = g.concurrent := by
  unfold destroy
  by_cases ht : g.timers = false
  · rw [if_pos ht]
  · rw [if_neg ht]
    show (_ : G).concurrent = _
    exact foldl_clear_concurrent g.active g

theorem stepF_concurrent (g : G) (e : Ev) :
    (stepF g e).concurrent = g.concurrent := by
  cases e with
  | launch s o cb =>
    simp only [stepF]
    by_cases hg : g.timers = true ∧ cb ∉ g.used
    · rw [if_pos hg]
      exact launch_concurrent _ _ _ _
    · rw [if_neg hg]
  | exit id code =>
    simp only [stepF]
    cases hfr : findRound g id with
    | none => rfl
    | some r => exact retry_concurrent _ _ _
  | error id e =>
    simp only [stepF]
    cases hfr : findRound g id with
    | none => rfl
    | some r => exact retry_concurrent _ _ _
  | message id m =>
    simp only [stepF]
    cases hfr : findRound g id with
    | none => rfl
    | some r => exact onMessage_concurrent _ _ _
  | timeout id =>
    simp only [stepF]
    by_cases ha : id ∈ g.armed
    · rw [if_pos ha]
      cases hfr : findRound g id with
      | none => rfl
      | some r => exact timeoutFire_concurrent _ _
    · rw [if_neg ha]
  | reload f => rfl
  | destroy => exact destroy_concurrent _

/-- The concurrency limit chosen at construction never changes. -/
theorem reach_concurrent {g0 g : G} (hR : Reach g0 g) :
    g.concurrent = g0.concurrent := by
  induction hR with
  | refl => rfl
  | step e hR ih => rw [stepF_concurrent]; exact ih

/-- C9 (counterexample): a Supervisor constructed with `retries: 0`
gets a retry budget of 3, not 0 — the constructor resolves options
with JavaScript `||` (line 54), under which 0 is falsy and falls back
to the default. -/
theorem gj_C9_counterexample :
    (gjallarhorn ⟨none, none, some 0, none⟩).retries = 3
    ∧ ¬ (gjallarhorn ⟨none, none, some 0, none⟩).retries = 0 := by
  constructor
  · rfl
  · intro h
    cases h

/-- C9 (amended): a Supervisor constructed with no options uses
timeout 30000 ms, concurrency limit 256 and retry budget 3; a
construction option replaces the corresponding default when it is
truthy (nonzero), while a zero value falls back to the default — in
particular `retries: 0` yields a budget of 3, not 0; a concurrency
limit of `c > 0` bounds the active attempts by `c` in every reachable
state. -/
theorem gj_C9_defaults (t c r : Nat) (f : Option (Nat → Bool)) :
    ((gjallarhorn ⟨none, none, none, f⟩).timeout = 30000
      ∧ (gjallarhorn ⟨none, none, none, f⟩).concurrent = 256
      ∧ (gjallarhorn ⟨none, none, none, f⟩).retries = 3)
    ∧ (0 < t → (gjallarhorn ⟨some t, some c, some r, f⟩).timeout = t)
    ∧ (0 < c → (gjallarhorn ⟨some t, some c, some r, f⟩).concurrent = c)
    ∧ (0 < r → (gjallarhorn ⟨some t, some c, some r, f⟩).retries = r)
    ∧ (gjallarhorn ⟨some t, some c, some 0, f⟩).retries = 3
    ∧ (0 < c → ∀ g, Reach (gjallarhorn ⟨some t, some c, some r, f⟩) g →
        g.active.length ≤ c) := by
  refine ⟨⟨rfl, rfl, rfl⟩, ?_, ?_, ?_, rfl, ?_⟩
  · intro htp
    have hne : ¬ t = 0 := Nat.pos_iff_ne_zero.1 htp
    simp [gjallarhorn, numOr, hne]
  · intro hcp
    have hne : ¬ c = 0 := Nat.pos_iff_ne_zero.1 hcp
    simp [gjallarhorn, numOr, hne]
  · intro hrp
    have hne : ¬ r = 0 := Nat.pos_iff_ne_zero.1 hrp
    simp [gjallarhorn, numOr, hne]
  · intro hcp g hR
    have hI := reach_inv (init_inv _) hR
    have hc := reach_concurrent hR
    have hcc : (gjallarhorn ⟨some t, some c, some r, f⟩).concurrent = c := by
      have hne : ¬ c = 0 := Nat.pos_iff_ne_zero.1 hcp
      simp [gjallarhorn, numOr, hne]
    have hle := hI.activeLe
    rw [hc, hcc] at hle
    exact hle

theorem gj_C9_witness :
    (gjallarhorn ⟨some 100, some 2, some 5, none⟩).timeout = 100
    ∧ (gjallarhorn ⟨some 100, some 2, some 5, none⟩).concurrent = 2
    ∧ (gjallarhorn ⟨some 100, some 2, some 5, none⟩).retries = 5
    ∧ (gjallarhorn ⟨some 100, some 2, some 0, none⟩).retries = 3
    ∧ (gjallarhorn ⟨some 100, some 2, some 5, none⟩).active.length ≤ 2 :=
  ⟨(gj_C9_defaults 100 2 5 none).2.1 (by decide),
   (gj_C9_defaults 100 2 5 none).2.2.1 (by decide),
   (gj_C9_defaults 100 2 5 none).2.2.2.1 (by decide),
   (gj_C9_defaults 100 2 0 none).2.2.2.2.1,
   (gj_C9_defaults 100 2 5 none).2.2.2.2.2 (by decide) _ Reach.refl⟩

/-- C6 (counterexample): the first Attempt of a submission does not
carry the full effective retry budget: with the default budget 3 the
created round stores `retries = 2` (the `Round` constructor
pre-decrements, line 25), and after three failing executions — not
four — the callback fires with the terminal error. -/
theorem gj_C6_counterexample :
    ex1.active.map Round.retries = [2]
    ∧ ¬ (2 : Int) = 3
    ∧ (stepF (stepF (stepF ex1 (.exit 0 1)) (.exit 1 1)) (.exit 2 1)).ids = 3
    ∧ (stepF (stepF (stepF ex1 (.exit 0 1)) (.exit 1 1)) (.exit 2 1)).log
        = [⟨7, some .failedRetrying, some []⟩] := by
  refine ⟨by decide, by decide, by decide, by decide⟩

/-- C6 (amended): `retriesRemaining` is decremented at the creation of
every Attempt, the initial one included: the Attempt created on first
admission stores `effective budget - 1`, and a retry Attempt stores
its predecessor's counter minus one — so a budget of `r ≥ 1` permits
`r - 1` retries after the initial try (`r` executions in total). -/
theorem gj_C6_budget {g : G} {f : Nat → Bool} (s : Nat) (o : Opts) (cb : Nat)
    (hl : ¬ g.active.length = g.concurrent) (hfac : g.factory = some f)
    (hs : f s = true) {r : Round} (h : Inv g) (hr : r ∈ g.active)
    (ht : g.timers = true) (hz : ¬ r.retries = 0) (hfr : f r.spec = true) :
    (launch g s o cb).1.active
      = g.active
        ++ [(⟨g.ids, s, effRetries g o - 1, effTimeout g o, cb, false,
              o.message, []⟩ : Round)]
    ∧ (again g r).1.active
      = g.active.filter (fun x => x.id != r.id)
        ++ [(⟨g.ids, r.spec, r.retries - 1, r.timeout, r.cb, false,
              r.message, []⟩ : Round)] := by
  constructor
  · rw [launch_ok s o cb hl hfac hs]
    rfl
  · rw [retry_shape h hr ht hz hfac hfr]
    rfl

theorem gj_C6_witness :
    (launch ex1 9 exOpts 8).1.active
      = ex1.active
        ++ [(⟨ex1.ids, 9, effRetries ex1 exOpts - 1, effTimeout ex1 exOpts,
              8, false, false, []⟩ : Round)]
    ∧ (again ex1 exRound).1.active
      = ex1.active.filter (fun x => x.id != exRound.id)
        ++ [(⟨ex1.ids, exRound.spec, exRound.retries - 1, exRound.timeout,
              exRound.cb, false, exRound.message, []⟩ : Round)] :=
  gj_C6_budget 9 exOpts 8 (by decide)
    (rfl : ex1.factory = some exFactory) (rfl : exFactory 9 = true) ex1_inv
    (by decide) (by decide) (by decide) (rfl : exFactory exRound.spec = true)

/-- C7: once the instance is destroyed (`this.timers` gone), the guard
at the head of `again` (line 148) makes every failure or timeout
signal reaching the resolution path a no-op: no retry transition runs,
no new Attempt, worker or timer is created, and the state is left
untouched. -/
theorem gj_C7_destroyed_guard {g : G} (r : Round) (ht : g.timers = false) :
    again g r = (g, true)
    ∧ (∀ n, retry g r (.code (n + 1)) = g)
    ∧ (∀ e, retry g r (.err e) = g)
    ∧ timeoutFire g r = g := by
  have hA : again g r = (g, true) := by
    unfold again
    rw [if_pos ht]
  refine ⟨hA, ?_, ?_, ?_⟩
  · intro n
    simp [retry, hA]
  · intro e
    simp [retry, hA]
  · simp [timeoutFire, hA]

theorem gj_C7_witness :
    again exDestroyed exRound = (exDestroyed, true)
    ∧ retry exDestroyed exRound (.code 1) = exDestroyed
    ∧ retry exDestroyed exRound (.err 4) = exDestroyed
    ∧ timeoutFire exDestroyed exRound = exDestroyed :=
  have h := gj_C7_destroyed_guard exRound
    (by decide : exDestroyed.timers = false)
  ⟨h.1, h.2.1 0, h.2.2.1 4, h.2.2.2⟩

/-- C5: a `launch` call on a live instance with spare capacity whose
factory is unset or yields a falsy handle returns `false` and is
otherwise a no-op — only the callback identity is recorded as used —
and the supplied callback is never invoked in any future reachable
state. -/
theorem gj_C5_drop {g : G} (s : Nat) (o : Opts) (cb : Nat) (h : Inv g)
    (ht : g.timers = true) (hl : ¬ g.active.length = g.concurrent)
    (hfac : g.factory = none ∨ ∃ f, g.factory = some f ∧ f s = false)
    (hu : cb ∉ g.used) :
    launch g s o cb = (g, false)
    ∧ stepF g (.launch s o cb) = { g with used := g.used ++ [cb] }
    ∧ ∀ g', Reach (stepF g (.launch s o cb)) g' → cb ∉ logCbs g' := by
  have h0 : launch g s o cb = (g, false) := by
    rcases hfac with hn | ⟨f, hsome, hfs⟩
    · exact launch_none s o cb hl hn
    · exact launch_falsy s o cb hl hsome hfs
  have h1 : launch { g with used := g.used ++ [cb] } s o cb
      = ({ g with used := g.used ++ [cb] }, false) := by
    rcases hfac with hn | ⟨f, hsome, hfs⟩
    · exact launch_none s o cb hl hn
    · exact launch_falsy s o cb hl hsome hfs
  have hstep : stepF g (.launch s o cb) = { g with used := g.used ++ [cb] } := by
    simp only [stepF]
    rw [if_pos ⟨ht, hu⟩, h1]
  refine ⟨h0, hstep, ?_⟩
  have hg1 : Inv { g with used := g.used ++ [cb] } :=
    { idsNodup := h.idsNodup, idsLt := h.idsLt, noNope := h.noNope,
      cbsNodup := h.cbsNodup,
      cbsUsed := fun c hc => List.mem_append_left _ (h.cbsUsed c hc),
      activeLe := h.activeLe, armedEq := h.armedEq,
      handlerEmpty := h.handlerEmpty,
      destroyedInactive := h.destroyedInactive }
  have hu1 : cb ∈ ({ g with used := g.used ++ [cb] } : G).used := by
    simp
  have hd1 : cb ∉ refCbs { g with used := g.used ++ [cb] } :=
    fun hmem => hu (h.cbsUsed cb hmem)
  intro g' hR
  rw [hstep] at hR
  have hdead := reach_dead hg1 hu1 hd1 hR
  intro hlm
  exact hdead.2 (by
    simp only [refCbs, List.mem_append]
    tauto)

theorem gj_C5_witness :
    launch exNoFac 9 exOpts 3 = (exNoFac, false)
    ∧ 3 ∉ logCbs (stepF exNoFac (.launch 9 exOpts 3)) :=
  have h := gj_C5_drop 9 exOpts 3
    (reach_inv (init_inv exCtor) (Reach.step _ Reach.refl))
    (by decide : exNoFac.timers = true)
    (by decide : ¬ exNoFac.active.length = exNoFac.concurrent)
    (Or.inl (rfl : exNoFac.factory = none))
    (by decide : 3 ∉ exNoFac.used)
  ⟨h.1, h.2.2 _ Reach.refl⟩

/-- C3: in every reachable state the number of active attempts is at
most the concurrency limit; a `launch` at capacity appends the
defaulted `(spec, options, callback)` triple to the queue tail and
returns `false`; a dequeue processes exactly the queue head, the rest
keeping their order (FIFO). -/
theorem gj_C3_concurrency (o : CtorOpts) (g : G)
    (hR : Reach (gjallarhorn o) g) :
    g.active.length ≤ g.concurrent
    ∧ (∀ s opts cb, g.active.length = g.concurrent →
        launch g s opts cb
          = ({ g with queue := g.queue ++ [(s, defOpts g opts, cb)] }, false))
    ∧ (∀ s opts cb rest, g.queue = (s, opts, cb) :: rest →
        ¬ g.active.length = g.concurrent →
        next g = launch { g with queue := rest } s opts cb) := by
  refine ⟨(reach_inv (init_inv o) hR).activeLe, ?_, ?_⟩
  · intro s opts cb hl
    exact launch_queue s opts cb hl
  · intro s opts cb rest hq hl
    exact next_cons hq hl

theorem gj_C3_witness :
    exq1.active.length ≤ exq1.concurrent
    ∧ launch exq1 2 exOpts 101
      = ({ exq1 with queue := exq1.queue ++ [(2, defOpts exq1 exOpts, 101)] },
        false) :=
  have h := gj_C3_concurrency exCtor1 exq1 (Reach.step _ Reach.refl)
  ⟨h.1, h.2.1 2 exOpts 101 (by decide)⟩

/-- C4: `destroy()` is an idempotent one-shot teardown: on a live
instance it resolves every active round with the shared cancellation
error (killing its worker, never retrying), invokes every queued
entry's callback with the same error without creating an attempt,
clears both collections and the timer registry, drops the factory,
and returns `true`; any further call returns `false` and leaves the
state untouched. -/
theorem gj_C4_destroy {g : G} (h : Inv g) :
    (g.timers = true →
      destroy g =
        ({ g with
            active := []
            queue := []
            armed := []
            timers := false
            factory := none
            killed := g.killed ++ g.active.map Round.id
            log := g.log ++ g.active.map (fun r => ⟨r.cb, some .cancelled, none⟩)
              ++ g.queue.map (fun (q : Nat × Opts × Nat) =>
                  (⟨q.2.2, some .cancelled, none⟩ : CbCall)) }, true)
      ∧ destroy (destroy g).1 = ((destroy g).1, false))
    ∧ (g.timers = false → destroy g = (g, false)) := by
  have hfalse : ∀ g2 : G, g2.timers = false → destroy g2 = (g2, false) := by
    intro g2 h2
    unfold destroy
    rw [if_pos h2]
  constructor
  · intro ht
    refine ⟨destroy_spec h ht, ?_⟩
    have h2 : (destroy g).1.timers = false := by
      rw [destroy_spec h ht]
    exact hfalse _ h2
  · exact hfalse g

theorem gj_C4_witness :
    destroy ex1 =
      ({ ex1 with
          active := []
          queue := []
          armed := []
          timers := false
          factory := none
          killed := ex1.killed ++ ex1.active.map Round.id
          log := ex1.log ++ ex1.active.map (fun r => ⟨r.cb, some .cancelled, none⟩)
            ++ ex1.queue.map (fun (q : Nat × Opts × Nat) =>
                (⟨q.2.2, some .cancelled, none⟩ : CbCall)) }, true)
    ∧ destroy (destroy ex1).1 = ((destroy ex1).1, false) :=
  have h := (gj_C4_destroy ex1_inv).1 (by decide : ex1.timers = true)
  ⟨h.1, h.2⟩

/-- C2 (counterexample): an active round with two retries remaining
fails with exit code 1 while the factory has been removed by `reload`;
contrary to the claim, no new Attempt is admitted — the retry is
silently dropped (empty active set and queue, callback not
invoked). -/
theorem gj_C2_counterexample :
    ex2.active.map (fun r => (r.retries, r.cb)) = [(2, 7)]
    ∧ ex2.timers = true
    ∧ ex3 = stepF ex2 (.exit 0 1)
    ∧ ex3.active = []
    ∧ ex3.queue = []
    ∧ ex3.log = [] := by
  exact ⟨by decide, by decide, rfl, by decide, by decide, by decide⟩

/-- C2 (amended): when an active round fails (nonzero exit, error
signal, or timeout) with retries remaining on a live instance, and the
factory yields a handle for its spec, the round's timer key and event
subscriptions are cancelled (it leaves the active set, through which
all signals are delivered), its worker is killed, its callback is not
invoked, and a fresh round with a new id, the same spec, timeout,
message handler and callback and the decremented budget is admitted
immediately, bypassing the queue; without a usable factory the retry
is dropped instead. -/
theorem gj_C2_retry {g : G} {r : Round} (h : Inv g) (hr : r ∈ g.active)
    (ht : g.timers = true) (hret : 0 < r.retries) {f : Nat → Bool}
    (hfac : g.factory = some f) (hf : f r.spec = true) :
    (∀ n, retry g r (.code (n + 1)) = retryPost g r)
    ∧ (∀ e, retry g r (.err e) = retryPost g r)
    ∧ timeoutFire g r = retryPost g r := by
  have hz : ¬ r.retries = 0 := fun he => by rw [he] at hret; cases hret
  have hA : again g r = (retryPost g r, true) :=
    retry_shape h hr ht hz hfac hf
  refine ⟨?_, ?_, ?_⟩
  · intro n
    simp [retry, hA]
  · intro e
    simp [retry, hA]
  · simp [timeoutFire, hA]

theorem gj_C2_witness :
    retry ex1 exRound (.code 1) = retryPost ex1 exRound
    ∧ retry ex1 exRound (.err 4) = retryPost ex1 exRound
    ∧ timeoutFire ex1 exRound = retryPost ex1 exRound :=
  have h := gj_C2_retry ex1_inv (by decide : exRound ∈ ex1.active)
    (by decide : ex1.timers = true) (by decide : 0 < exRound.retries)
    (rfl : ex1.factory = some exFactory) (rfl : exFactory exRound.spec = true)
  ⟨h.1 0, h.2.1 4, h.2.2⟩

/-- C8: a round with a caller-supplied message handler delivers every
message synchronously to the handler together with the owning round id
and keeps its buffer empty (so the terminal callback's messages array
stays empty); a round without a handler appends each message at the
tail of its buffer (arrival order); a clean exit delivers exactly that
buffer as the terminal callback's second argument. -/
theorem gj_C8_messages {g : G} {r : Round} (h : Inv g) (hr : r ∈ g.active) :
    (r.message = true →
      r.msgs = []
      ∧ ∀ m, onMessage g r m = { g with handled := g.handled ++ [(r.id, m)] })
    ∧ (r.message = false →
      ∀ m, onMessage g r m = { g with active :=
        (g.active.map
          (fun x => if x.id == r.id then { x with msgs := x.msgs ++ [m] } else x)) })
    ∧ (retry g r (.code 0)).log = g.log ++ [⟨r.cb, none, some r.msgs⟩] := by
  refine ⟨?_, ?_, ?_⟩
  · intro hm
    refine ⟨h.handlerEmpty r hr hm, ?_⟩
    intro m
    unfold onMessage
    rw [if_pos hm]
  · intro hm m
    unfold onMessage
    rw [if_neg (by simp [hm])]
  · show (next (clear g r.id none (some r.msgs))).1.log = _
    rw [next_log]
    have hnope : r.fnNope = false := h.noNope r hr
    have hparts := refCbs_parts h.cbsNodup
    have hlogr : r.cb ∉ logCbs g :=
      hparts.2.2.2.2.1 r.cb (List.mem_map_of_mem Round.cb hr)
    have hcl := clear_mem hr h.idsNodup none (some r.msgs)
    rw [hnope] at hcl
    simp only [Bool.false_eq_true, if_false, if_neg hlogr] at hcl
    rw [hcl]

theorem gj_C8_witness :
    (retry exm3 exMRound (.code 0)).log
      = exm3.log ++ [⟨4, none, some [11, 12]⟩]
    ∧ exHRound.msgs = []
    ∧ onMessage exh1 exHRound 11
      = { exh1 with handled := exh1.handled ++ [(0, 11)] }
    ∧ onMessage exm3 exMRound 13
      = { exm3 with active :=
          (exm3.active.map
            (fun x => if x.id == exMRound.id then { x with msgs := x.msgs ++ [13] }
              else x)) } :=
  have h1 := gj_C8_messages
    (reach_inv (init_inv exCtor)
      (Reach.step _ (Reach.step _ (Reach.step _ Reach.refl))))
    (by decide : exMRound ∈ exm3.active)
  have h2 := gj_C8_messages
    (reach_inv (init_inv exCtor) (Reach.step _ Reach.refl))
    (by decide : exHRound ∈ exh1.active)
  ⟨h1.2.2, (h2.1 rfl).1, (h2.1 rfl).2 11, h1.2.1 rfl 13⟩

/-- C1 (counterexample): the "at least once" half fails: a submission
is admitted (its round is active, owning callback 7), the factory is
then replaced with none, and the worker exits nonzero; the retry
transition re-runs `launch`, which silently drops the submission — the
callback has not fired and can never fire in any reachable future
state. -/
theorem gj_C1_counterexample :
    ex1.active.map Round.cb = [7]
    ∧ ex3 = stepF (stepF ex1 (.reload none)) (.exit 0 1)
    ∧ ex3.active = []
    ∧ ex3.queue = []
    ∧ 7 ∉ logCbs ex3
    ∧ neverFires ex3 7 := by
  refine ⟨by decide, rfl, by decide, by decide, by decide, ?_⟩
  intro g' hR hmem
  have hdead := reach_dead ex3_inv (by decide : 7 ∈ ex3.used)
    (by decide : 7 ∉ refCbs ex3) hR
  exact hdead.2 (by
    simp only [refCbs, List.mem_append]
    tauto)

/-- C1 (amended): a logical submission's callback is invoked at most
once across all its retry attempts — duplicate or racing signals for a
resolved attempt are ignored and the ownership transfer during a retry
never fires it — but it may fire zero times: when a (re)admission's
factory invocation yields no worker handle, the submission is silently
dropped and the callback never fires. -/
theorem gj_C1_at_most_once (o : CtorOpts) (g : G)
    (hR : Reach (gjallarhorn o) g) : (logCbs g).Nodup := by
  have h := reach_inv (init_inv o) hR
  exact (refCbs_parts h.cbsNodup).2.2.1

theorem gj_C1_witness : (logCbs (stepF exm3 (.exit 0 0))).Nodup :=
  gj_C1_at_most_once exCtor _
    (Reach.step _ (Reach.step _ (Reach.step _ (Reach.step _ Reach.refl))))

/-- C10: `launch` mutates the caller-supplied options object in place
— the referenced store cell is overwritten with the defaulted object
(absent `retries`/`timeout` filled from the instance defaults, present
values kept) in every branch, before the admission decision — and a
queued entry stores the reference to that caller-owned object, so a
later external mutation of the object changes what the queued entry
resolves to. -/
theorem gj_C10_alias {g : LS} {oref : Nat} {o : OptObj} (spec cb : Nat)
    (hor : g.store[oref]? = some o) :
    (launchRef g spec oref cb).1.store = g.store.set oref (defaulted g o)
    ∧ (g.activeCount = g.concurrent →
        (launchRef g spec oref cb).2 = false
        ∧ (launchRef g spec oref cb).1.queue = g.queue ++ [(spec, oref, cb)]
        ∧ ∀ o2 : OptObj,
            entryOpts { (launchRef g spec oref cb).1 with
                store := (launchRef g spec oref cb).1.store.set oref o2 }
              g.queue.length = some o2) := by
  have hlt : oref < g.store.length := by
    have := List.getElem?_eq_some_iff.1 hor
    exact this.choose
  constructor
  · simp only [launchRef, hor]
    by_cases hl : g.activeCount = g.concurrent
    · rw [if_pos hl]
    · rw [if_neg hl]
      cases g.factory with
      | none => rfl
      | some f => cases hb : f spec <;> simp [hb]
  · intro hl
    have hrun : launchRef g spec oref cb
        = ({ g with
            store := g.store.set oref (defaulted g o)
            queue := g.queue ++ [(spec, oref, cb)] }, false) := by
      simp only [launchRef, hor]
      rw [if_pos hl]
    rw [hrun]
    refine ⟨rfl, rfl, ?_⟩
    intro o2
    unfold entryOpts
    have hq : (g.queue ++ [(spec, oref, cb)])[g.queue.length]?
        = some (spec, oref, cb) := List.getElem?_concat_length _ _
    rw [hq]
    show ((g.store.set oref (defaulted g o)).set oref o2)[oref]? = some o2
    simp [List.getElem?_set_self, hlt, List.set_set]

theorem gj_C10_witness :
    (launchRef ⟨[⟨none, none⟩], [], 1, 1, 3, 30000, none⟩ 5 0 7).1.store
      = [⟨some 3, some 30000⟩]
    ∧ (launchRef ⟨[⟨none, none⟩], [], 1, 1, 3, 30000, none⟩ 5 0 7).1.queue
      = [(5, 0, 7)]
    ∧ entryOpts { (launchRef ⟨[⟨none, none⟩], [], 1, 1, 3, 30000, none⟩ 5 0 7).1 with
        store := (launchRef ⟨[⟨none, none⟩], [], 1, 1, 3, 30000, none⟩ 5 0 7).1.store.set
          0 ⟨some 9, some 9⟩ } 0 = some ⟨some 9, some 9⟩ :=
  have h := gj_C10_alias 5 7
    (rfl : (⟨[⟨none, none⟩], [], 1, 1, 3, 30000, none⟩ : LS).store[0]?
      = some ⟨none, none⟩)
  ⟨h.1.trans (by decide), ((h.2 rfl).2.1).trans (by decide),
   (h.2 rfl).2.2 ⟨some 9, some 9⟩⟩

end Gjall
